import Mathlib

/-!
MusicalChairs simulator: embedding of `src/main.cpp` and its properties.

The program reads four integers `N M R W`, checks feasibility, creates `N`
participants and `M` chair locks, plays `R` rounds (weighted selection of a
cohort, one `compete` thread per cohort member) and reports statistics.

Modelling conventions
* `int` arithmetic whose result can leave the `int` range is wrapped to 32 bits
  (`wrapInt`); conversions to `size_t` are taken modulo `2^64` (`toSizeT`).
  A win count never exceeds the number of rounds played, so `winCount++` is
  an exact sum.
* `double` quantities are rationals, computed exactly.
* Everything the program obtains from outside (the results of `std::stoi`, of
  `rand()`, of the discrete distribution, of `std::shuffle`, and the order in
  which the scheduler lets threads move) is an explicit input.
* A `compete` thread is a small state machine whose atomic steps are one
  `try_lock` attempt and the increment done under `winCountMutex`.
* Text written to the console is not modelled, except where producing it can
  throw (the progress bar).
-/

namespace MusicalChairs

/-! ## Machine integers -/

/-- Value of an `int` expression whose exact value is `x` (32-bit two's complement). -/
def wrapInt (x : Int) : Int := (x + 2147483648) % 4294967296 - 2147483648

/-- Conversion of an `int` to `size_t` (64 bits). -/
def toSizeT (x : Int) : Nat := (x % 18446744073709551616).toNat

/-- The values an `int` can hold. -/
def fitsInt (x : Int) : Prop := -2147483648 ≤ x ∧ x ≤ 2147483647

/-- Truncation toward zero, as done by `static_cast<int>` on a `double`. -/
def truncToInt (q : ℚ) : Int := if 0 ≤ q then ⌊q⌋ else ⌈q⌉

/-! ## Data model -/

/-- The `Participant` struct. -/
structure Participant where
  id : Int
  winCount : Int
  speed : ℚ
  deriving DecidableEq

/-- Control state of one `compete` call once its sleep is over.
`scanning rest`: inside the `for` loop, `rest` are the entries of `idx` not yet tried;
`acquired`: a `try_lock` has just succeeded, the increment is still to be done;
`finished won`: the call has returned, through `break` (`won = true`) or by
running off the end of `idx` (`won = false`). -/
inductive Phase where
  | scanning (rest : List Nat)
  | acquired
  | finished (won : Bool)
  deriving DecidableEq

/-- One thread of a round: `who` is the index `idx` of `participants[idx]` it was started on. -/
structure Thread where
  who : Nat
  phase : Phase
  deriving DecidableEq

/-- Shared state during a round. `log` records every successful `try_lock`
as (participant index, chair index), most recent first. -/
structure RoundState where
  chairLocks : List Bool
  participants : List Participant
  threads : List Thread
  log : List (Nat × Nat)

/-! ## `compete` -/

/-- The sleep of `compete`, in milliseconds: `static_cast<int>((1.0 - p.speed) * 1000)`. -/
def delay (speed : ℚ) : Int := truncToInt ((1 - speed) * 1000)

/-- The statement `p.winCount++` on one participant. The count is at most the
number of rounds played so far, which is below `R`, so the sum stays an `int`. -/
def bump (p : Participant) : Participant := { p with winCount := p.winCount + 1 }

/-- The statement `p.winCount++` on `participants[i]`. -/
def winIncr : List Participant → Nat → List Participant
  | [], _ => []
  | p :: ps, 0 => bump p :: ps
  | p :: ps, i + 1 => p :: winIncr ps i

/-- One atomic step of thread `t`.
In the loop, the next index `i` of `idx` is tried: `try_lock` succeeds exactly
when chair `i` is free, locks it, and the thread moves on to the increment;
otherwise the loop continues. After a success the increment is performed (under
`winCountMutex`, hence atomically) and the loop is left by `break`. -/
def competeStep (st : RoundState) (t : Nat) : RoundState :=
  match st.threads[t]? with
  | none => st
  | some th =>
    match th.phase with
    | Phase.scanning [] =>
      { st with threads := st.threads.set t ⟨th.who, Phase.finished false⟩ }
    | Phase.scanning (i :: rest) =>
      if st.chairLocks[i]? = some false then
        { st with
          chairLocks := st.chairLocks.set i true
          threads := st.threads.set t ⟨th.who, Phase.acquired⟩
          log := (th.who, i) :: st.log }
      else
        { st with threads := st.threads.set t ⟨th.who, Phase.scanning rest⟩ }
    | Phase.acquired =>
      { st with
        participants := winIncr st.participants th.who
        threads := st.threads.set t ⟨th.who, Phase.finished true⟩ }
    | Phase.finished _ => st

/-- The threads move in the order given by `schedule` (one atomic step per
entry). The sleep of a thread only delays its first step, so every timing is
some schedule. -/
def runSchedule (st : RoundState) (schedule : List Nat) : RoundState :=
  schedule.foldl competeStep st

/-- Number of steps a thread in the given phase can still take. -/
def stepsLeft : Phase → Nat
  | Phase.scanning rest => rest.length + 2
  | Phase.acquired => 1
  | Phase.finished _ => 0

/-- Thread `t` runs until it returns. -/
def finishThread (st : RoundState) (t : Nat) : RoundState :=
  match st.threads[t]? with
  | none => st
  | some th => runSchedule st (List.replicate (stepsLeft th.phase) t)

/-- The loop `for (auto& t : threads) t.join()`: every thread still running runs to its end. -/
def joinAll (st : RoundState) : RoundState :=
  (List.range st.threads.length).foldl finishThread st

/-- Total of the win counts of a table. -/
def winSum (participants : List Participant) : Int :=
  (participants.map Participant.winCount).sum

/-- Number of threads that hold a chair and have not yet done their increment. -/
def pending (threads : List Thread) : Nat :=
  threads.countP (fun th => decide (th.phase = Phase.acquired))

/-- The table `participants` after each participant whose index is in `cohort`
has had one increment. -/
def award (participants : List Participant) (cohort : List Nat) : List Participant :=
  cohort.foldl winIncr participants

/-- The ways a thread can move in one atomic step (the cases of `competeStep`). -/
inductive Moves (st : RoundState) (t : Nat) : RoundState → Prop where
  | idle : Moves st t st
  | exhaust (th : Thread) (h : st.threads[t]? = some th)
      (hp : th.phase = Phase.scanning []) :
      Moves st t { st with threads := st.threads.set t ⟨th.who, Phase.finished false⟩ }
  | lock (th : Thread) (i : Nat) (rest : List Nat) (h : st.threads[t]? = some th)
      (hp : th.phase = Phase.scanning (i :: rest)) (hfree : st.chairLocks[i]? = some false) :
      Moves st t
        { st with
          chairLocks := st.chairLocks.set i true
          threads := st.threads.set t ⟨th.who, Phase.acquired⟩
          log := (th.who, i) :: st.log }
  | miss (th : Thread) (i : Nat) (rest : List Nat) (h : st.threads[t]? = some th)
      (hp : th.phase = Phase.scanning (i :: rest)) (hheld : st.chairLocks[i]? ≠ some false) :
      Moves st t { st with threads := st.threads.set t ⟨th.who, Phase.scanning rest⟩ }
  | count (th : Thread) (h : st.threads[t]? = some th) (hp : th.phase = Phase.acquired) :
      Moves st t
        { st with
          participants := winIncr st.participants th.who
          threads := st.threads.set t ⟨th.who, Phase.finished true⟩ }

/-! ## Selection -/

/-- The power `std::pow(1 + winCount, k)` with `k = 2`; the sum is an `int` sum. -/
def weightDenominator (winCount : Int) : ℚ := ((wrapInt (1 + winCount) : Int) : ℚ) ^ 2

/-- The weight pushed for a participant: `1.0 / std::pow(1 + winCount, k)`. -/
def weight (winCount : Int) : ℚ := 1 / weightDenominator winCount

/-- The vector `weights` of a round. -/
def weights (participants : List Participant) : List ℚ :=
  participants.map (fun p => weight p.winCount)

/-- Probability with which one draw of `std::discrete_distribution` built from
the weights `ws` returns index `i`: its weight over the sum of the weights. -/
def drawProbability (ws : List ℚ) (i : Nat) : ℚ := ws.getD i 0 / ws.sum

/-- The loop `while (selected.size() < M) selected.insert(dist(gen))`.
`draws` are the successive values of `dist(gen)`; `M` is already converted to
`size_t`. The result is `none` when the loop is still running after all the
given draws. -/
def selectLoop (M : Nat) : List Nat → List Nat → Option (List Nat)
  | [], selected => if selected.length < M then none else some selected
  | d :: ds, selected =>
    if selected.length < M then selectLoop M ds (selected.insert d) else some selected

/-- The loop that starts one thread per element of `selected`; the `k`-th
thread started tries the chairs in the order `shuffles k`. -/
def startThreads (shuffles : Nat → List Nat) : Nat → List Nat → List Thread
  | _, [] => []
  | k, idx :: rest => ⟨idx, Phase.scanning (shuffles k)⟩ :: startThreads shuffles (k + 1) rest

/-- What a round takes from outside. -/
structure RoundOracle where
  draws : List Nat
  shuffles : Nat → List Nat
  schedule : List Nat

/-- State of a round when the threads are started: the loop over `chairLocks`
at the top of the round has left all `M` chairs unlocked. -/
def roundStart (M : Nat) (participants : List Participant) (selected : List Nat)
    (shuffles : Nat → List Nat) : RoundState :=
  { chairLocks := List.replicate M false
    participants := participants
    threads := startThreads shuffles 0 selected
    log := [] }

/-- The contention of one round, from the start of the threads until all are joined. -/
def contend (M : Nat) (participants : List Participant) (selected : List Nat)
    (o : RoundOracle) : RoundState :=
  joinAll (runSchedule (roundStart M participants selected o.shuffles) o.schedule)

/-- How a run of `main` ends.
`usage`: `return 1` after the usage message; `parseError`: `std::stoi` threw;
`infeasible`: `return 1` after the feasibility message; `allocError`: `resize`
or `reserve` threw on a negative size; `selecting`: the selection loop of a
round is still running when the draws supplied are used up; `badIndex`: a
thread was started on an index outside the table; `displayError`: a string of
the progress bar was given a negative length; `noParticipant`:
`participants[0]` was read on an empty table; `returned`: `return 0`. -/
inductive Status where
  | usage
  | parseError
  | infeasible
  | allocError
  | selecting
  | badIndex
  | displayError
  | noParticipant
  | returned
  deriving DecidableEq

/-- Result of one iteration of the round loop, up to the joins. -/
def oneRound (M : Nat) (participants : List Participant) (o : RoundOracle) :
    Except Status RoundState :=
  match selectLoop M o.draws [] with
  | none => Except.error Status.selecting
  | some selected =>
    if selected.all (fun idx => decide (idx < participants.length)) then
      Except.ok (contend M participants selected o)
    else Except.error Status.badIndex

/-- The two string lengths of the progress bar, `round * 50 / R` and
`50 - round * 50 / R`; `none` when one of them is negative, in which case the
`std::string` constructor throws `std::length_error`. -/
def progressBar (round R : Int) : Option (Int × Int) :=
  let filled := Int.tdiv (wrapInt (round * 50)) R
  let blank := wrapInt (50 - filled)
  if 0 ≤ filled ∧ 0 ≤ blank then some (filled, blank) else none

/-- Where the round loop stands when it stops: `fault` tells why it was left
early (`none` when it ran to its end), `rounds` counts the rounds whose threads
have all been joined, `participants` is the table at that point. -/
structure LoopEnd where
  fault : Option Status
  rounds : Nat
  participants : List Participant

/-- The body of the round loop for the value `round` of the loop variable: the
round is played and the progress bar is printed. The result is the table after
the round, or the point where the run stops. -/
def roundBody (M : Nat) (R : Int) (o : RoundOracle) (round : Nat)
    (participants : List Participant) : Except LoopEnd (List Participant) :=
  match oneRound M participants o with
  | Except.error s => Except.error ⟨some s, round, participants⟩
  | Except.ok st =>
    match progressBar round R with
    | none => Except.error ⟨some Status.displayError, round + 1, st.participants⟩
    | some _ => Except.ok st.participants

/-- The loop `for (round = 0; round < R; ++round)`: `todo` iterations remain,
`round` is the loop variable. -/
def roundsLoop (M : Nat) (R : Int) (oracle : Nat → RoundOracle) :
    Nat → Nat → List Participant → LoopEnd
  | 0, round, participants => ⟨none, round, participants⟩
  | todo + 1, round, participants =>
    match roundBody M R (oracle round) round participants with
    | Except.error e => e
    | Except.ok table => roundsLoop M R oracle todo (round + 1) table

/-- The cohort of round `r`: what the selection loop returns on the draws of
that round (empty when the loop does not return on them). -/
def cohortOf (M : Nat) (oracle : Nat → RoundOracle) (r : Nat) : List Nat :=
  (selectLoop M (oracle r).draws []).getD []

/-- Number of rounds among the first `rounds` whose cohort contains index `i`. -/
def appearances (M : Nat) (oracle : Nat → RoundOracle) (i : Nat) : Nat → Nat
  | 0 => 0
  | r + 1 => appearances M oracle i r + if i ∈ cohortOf M oracle r then 1 else 0

/-! ## Result aggregation -/

/-- The figures printed at the end (the standard deviation is the square root
of `variance`; `gap` is the `int` difference `maxWin - minWin`). -/
structure Stats where
  sum : ℚ
  sumSq : ℚ
  minWin : Int
  maxWin : Int
  mean : ℚ
  variance : ℚ
  gap : Int

/-- One iteration of the statistics loop. The square `p.winCount * p.winCount`
is an `int` product, converted to `double` only when it is added to `sumSq`. -/
def statsStep (acc : ℚ × ℚ × Int × Int) (p : Participant) : ℚ × ℚ × Int × Int :=
  (acc.1 + p.winCount, acc.2.1 + (wrapInt (p.winCount * p.winCount) : Int),
    min acc.2.2.1 p.winCount, max acc.2.2.2 p.winCount)

/-- The fairness analysis at the end of `main`; `none` when `participants[0]` does not exist. -/
def statistics (N : Int) (participants : List Participant) : Option Stats :=
  match participants with
  | [] => none
  | p0 :: _ =>
    let acc := participants.foldl statsStep (0, 0, p0.winCount, p0.winCount)
    let mean := acc.1 / N
    some
      { sum := acc.1
        sumSq := acc.2.1
        minWin := acc.2.2.1
        maxWin := acc.2.2.2
        mean := mean
        variance := acc.2.1 / N - mean * mean
        gap := wrapInt (acc.2.2.2 - acc.2.2.1) }

/-! ## `main` -/

/-- The participant table after the initialisation loop. -/
def initParticipants (N : Nat) (speeds : Nat → ℚ) : List Participant :=
  (List.range N).map (fun (i : Nat) => ⟨(i : Int), 0, speeds i⟩)

/-- The call of `std::sort` with the comparison `a.speed > b.speed`. -/
def sortBySpeed (participants : List Participant) : List Participant :=
  participants.insertionSort (fun a b => a.speed > b.speed)

/-- What an invocation takes from outside: `args` are the command-line arguments
after the program name, each given by what `std::stoi` makes of it (`none` when
it throws); `speeds i` is the `i`-th value of `rand() / RAND_MAX`. -/
structure Env where
  args : List (Option Int)
  speeds : Nat → ℚ
  oracle : Nat → RoundOracle

/-- What can be observed of a run. `exitCode` is `none` when `main` does not return. -/
structure Outcome where
  status : Status
  exitCode : Option Int
  initialised : Bool
  roundsCompleted : Nat
  participants : List Participant
  resultsCsv : Option (List (Int × Int))
  stats : Option Stats

/-- A run that stops before the participant table exists. -/
def earlyStop (s : Status) (code : Option Int) : Outcome :=
  { status := s, exitCode := code, initialised := false, roundsCompleted := 0,
    participants := [], resultsCsv := none, stats := none }

/-- The part of `main` after the round loop (line 149 on): the results file is
written, then the statistics are computed and `main` returns 0. When the loop
was left by a fault nothing of this is reached. -/
def report (N : Int) (loop : LoopEnd) : Outcome :=
  match loop.fault with
  | some s =>
    { status := s, exitCode := none, initialised := true,
      roundsCompleted := loop.rounds, participants := loop.participants,
      resultsCsv := none, stats := none }
  | none =>
    let csv := loop.participants.map (fun p => (p.id, p.winCount))
    match statistics N loop.participants with
    | none =>
      { status := Status.noParticipant, exitCode := none, initialised := true,
        roundsCompleted := loop.rounds, participants := loop.participants,
        resultsCsv := some csv, stats := none }
    | some s =>
      { status := Status.returned, exitCode := some 0, initialised := true,
        roundsCompleted := loop.rounds, participants := loop.participants,
        resultsCsv := some csv, stats := some s }

/-- The function `main`. `argc` is one more than the number of arguments; a
negative `N` or `M` makes `resize` or `reserve` throw `std::length_error`.
Past that point `M` is a non-negative `int`, so the number of chairs created
and the bound `M` of the selection loop, converted to `size_t`, are the same
number. -/
def main (env : Env) : Outcome :=
  if env.args.length + 1 < 5 then earlyStop Status.usage (some 1)
  else
    match env.args with
    | some N :: some M :: some R :: some W :: _ =>
      if wrapInt (R * M) < wrapInt (N * W) then earlyStop Status.infeasible (some 1)
      else if N < 0 ∨ M < 0 then earlyStop Status.allocError none
      else
        report N (roundsLoop (toSizeT M) R env.oracle R.toNat 0
          (sortBySpeed (initParticipants N.toNat env.speeds)))
    | _ => earlyStop Status.parseError none

/-! ## Invariants of a round -/

/-- Thread `t` exists and has returned. -/
def hasReturned (st : RoundState) (t : Nat) : Prop :=
  ∃ th w, st.threads[t]? = some th ∧ th.phase = Phase.finished w

/-- Invariant of a round played on `M` chairs from the table `base`: the chairs
locked are those of the log, no chair occurs twice in the log, and the
increments done or still to be done are covered by the log. -/
structure BasicInv (M : Nat) (base : List Participant) (st : RoundState) : Prop where
  locks : st.chairLocks.length = M
  log_lock : ∀ c : Nat, c ∈ st.log.map Prod.snd ↔ st.chairLocks[c]? = some true
  log_nodup : (st.log.map Prod.snd).Nodup
  plen : st.participants.length = base.length
  count : winSum st.participants + (pending st.threads : Int) ≤ winSum base + st.log.length

/-- Invariant of a round whose threads were started on the participants
`cohort`: a participant's entry differs from the one in `base` exactly when its
thread has returned through `break`, and then by one increment. -/
structure WinInv (base : List Participant) (cohort : List Nat) (st : RoundState) : Prop where
  who : st.threads.map Thread.who = cohort
  wc : ∀ (j : Nat) (th : Thread), st.threads[j]? = some th →
    st.participants[th.who]? =
      if th.phase = Phase.finished true then base[th.who]?.map bump else base[th.who]?
  other : ∀ p : Nat, p ∉ cohort → st.participants[p]? = base[p]?

/-- Invariant of a round with at most as many threads as chairs: the winners
logged are distinct members of the cohort, a thread still scanning has found
locked every chair it has passed, and no thread has returned empty-handed. -/
structure FullInv (M : Nat) (cohort : List Nat) (st : RoundState) : Prop where
  log_who_nodup : (st.log.map Prod.fst).Nodup
  log_who_sub : ∀ p ∈ st.log.map Prod.fst, p ∈ cohort
  scan : ∀ (j : Nat) (th : Thread) (rest : List Nat), st.threads[j]? = some th → th.phase = Phase.scanning rest →
    th.who ∉ st.log.map Prod.fst ∧ ∀ c : Nat, c < M → c ∉ rest → st.chairLocks[c]? = some true
  fin : ∀ (j : Nat) (th : Thread) (w : Bool), st.threads[j]? = some th → th.phase = Phase.finished w → w = true

/-- The three invariants together. -/
def RoundInv (M : Nat) (base : List Participant) (cohort : List Nat) (st : RoundState) : Prop :=
  BasicInv M base st ∧ WinInv base cohort st ∧ FullInv M cohort st

theorem wrapInt_of_fits {x : Int} (h : fitsInt x) : wrapInt x = x := by
  unfold fitsInt at h
  unfold wrapInt
  omega

theorem main_few_args (env : Env) (h : env.args.length < 4) :
    main env = earlyStop Status.usage (some 1) := by
  unfold main
  rw [if_pos (by omega)]

theorem main_four_args (env : Env) (N M R W : Int) (rest : List (Option Int))
    (h : env.args = some N :: some M :: some R :: some W :: rest) :
    main env =
      if wrapInt (R * M) < wrapInt (N * W) then earlyStop Status.infeasible (some 1)
      else if N < 0 ∨ M < 0 then earlyStop Status.allocError none
      else report N (roundsLoop (toSizeT M) R env.oracle R.toNat 0
          (sortBySpeed (initParticipants N.toNat env.speeds))) := by
  unfold main
  rw [h]
  simp

theorem main_parse_error (env : Env) (hlen : ¬ env.args.length < 4)
    (h : ∀ N M R W rest, env.args ≠ some N :: some M :: some R :: some W :: rest) :
    main env = earlyStop Status.parseError none := by
  unfold main
  rw [if_neg (by omega)]
  split
  · rename_i N M R W rest heq
    exact absurd heq (h N M R W rest)
  · rfl

theorem report_exitCode_ne_one (N : Int) (loop : LoopEnd) :
    (report N loop).exitCode ≠ some 1 := by
  unfold report
  split
  · simp
  · split <;> simp

theorem main_exit_one_iff (env : Env) :
    (main env).exitCode = some 1 ↔
      (env.args.length < 4 ∨ ∃ N M R W rest,
        env.args = some N :: some M :: some R :: some W :: rest ∧
          wrapInt (R * M) < wrapInt (N * W)) := by
  by_cases hlen : env.args.length < 4
  · rw [main_few_args env hlen]
    simp [earlyStop, hlen]
  · by_cases hex : ∃ N M R W rest, env.args = some N :: some M :: some R :: some W :: rest
    · obtain ⟨N, M, R, W, rest, heq⟩ := hex
      rw [main_four_args env N M R W rest heq]
      constructor
      · intro h
        right
        refine ⟨N, M, R, W, rest, heq, ?_⟩
        by_contra hc
        rw [if_neg hc] at h
        split_ifs at h
        · simp [earlyStop] at h
        · exact report_exitCode_ne_one _ _ h
      · rintro (h | ⟨N1, M1, R1, W1, rest1, heq1, hlt⟩)
        · exact absurd h hlen
        · rw [heq] at heq1
          simp only [List.cons.injEq, Option.some.injEq] at heq1
          obtain ⟨rfl, rfl, rfl, rfl, -⟩ := heq1
          rw [if_pos hlt]
          rfl
    · rw [main_parse_error env hlen (fun N M R W rest h => hex ⟨N, M, R, W, rest, h⟩)]
      constructor
      · intro h; simp [earlyStop] at h
      · rintro (h | ⟨N, M, R, W, rest, heq, -⟩)
        · exact absurd h hlen
        · exact absurd ⟨N, M, R, W, rest, heq⟩ hex

theorem main_exit_one_early (env : Env) (h : (main env).exitCode = some 1) :
    main env = earlyStop Status.usage (some 1) ∨
      main env = earlyStop Status.infeasible (some 1) := by
  rcases (main_exit_one_iff env).1 h with hlen | ⟨N, M, R, W, rest, heq, hlt⟩
  · exact Or.inl (main_few_args env hlen)
  · right
    rw [main_four_args env N M R W rest heq, if_pos hlt]

/-- C1: the feasibility check is computed on `int` products, so the claim fails
where a product leaves the `int` range. On `1 65536 65536 1` the program
returns 1 (R*M wraps to 0) although R*M < N*W is false; on `2 1 1 2147483647`
it does not return 1 (N*W wraps to -2) although R*M < N*W holds. What the
program does: it returns 1 exactly when fewer than four arguments are given or
the wrapped products satisfy the check, and it has then initialised nothing,
run no round and opened no results file; whenever both products fit in an
`int` this is the claim's condition R*M < N*W; on `10 1 1 5` it returns 1 and
writes no results file. -/
theorem C1_feasibility_check_wraps :
    ((∀ (speeds : Nat → ℚ) (oracle : Nat → RoundOracle),
          (main ⟨[some 1, some 65536, some 65536, some 1], speeds, oracle⟩).exitCode =
            some 1) ∧
        ¬ ((65536 : Int) * 65536 < 1 * 1)) ∧
      ((∀ (speeds : Nat → ℚ) (oracle : Nat → RoundOracle),
          (main ⟨[some 2, some 1, some 1, some 2147483647], speeds, oracle⟩).exitCode ≠
            some 1) ∧
        (1 : Int) * 1 < 2 * 2147483647) ∧
      (∀ env : Env,
        ((main env).exitCode = some 1 ↔
          (env.args.length < 4 ∨ ∃ N M R W rest,
            env.args = some N :: some M :: some R :: some W :: rest ∧
              wrapInt (R * M) < wrapInt (N * W))) ∧
        ((main env).exitCode = some 1 →
          (main env).initialised = false ∧ (main env).roundsCompleted = 0 ∧
            (main env).participants = [] ∧ (main env).resultsCsv = none)) ∧
      (∀ N M R W : Int, fitsInt (R * M) → fitsInt (N * W) →
        (wrapInt (R * M) < wrapInt (N * W) ↔ R * M < N * W)) ∧
      (∀ (speeds : Nat → ℚ) (oracle : Nat → RoundOracle),
        (main ⟨[some 10, some 1, some 1, some 5], speeds, oracle⟩).exitCode = some 1 ∧
          (main ⟨[some 10, some 1, some 1, some 5], speeds, oracle⟩).resultsCsv = none) := by
  refine ⟨⟨?_, by decide⟩, ⟨?_, by decide⟩, ?_, ?_, ?_⟩
  · intro speeds oracle
    have h := main_four_args ⟨[some 1, some 65536, some 65536, some 1], speeds, oracle⟩
      1 65536 65536 1 [] rfl
    rw [if_pos (by decide)] at h
    rw [h]
    rfl
  · intro speeds oracle h
    rcases (main_exit_one_iff _).1 h with hlen | ⟨N, M, R, W, rest, heq, hlt⟩
    · simp at hlen
    · simp only [List.cons.injEq, Option.some.injEq] at heq
      obtain ⟨rfl, rfl, rfl, rfl, -⟩ := heq
      exact absurd hlt (by decide)
  · intro env
    refine ⟨main_exit_one_iff env, ?_⟩
    intro h
    rcases main_exit_one_early env h with h1 | h1 <;> rw [h1] <;> simp [earlyStop]
  · intro N M R W h1 h2
    rw [wrapInt_of_fits h1, wrapInt_of_fits h2]
  · intro speeds oracle
    have h := main_four_args ⟨[some 10, some 1, some 1, some 5], speeds, oracle⟩
      10 1 1 5 [] rfl
    rw [if_pos (by decide)] at h
    rw [h]
    simp [earlyStop]

/-! ## The delay of `compete` -/

theorem truncToInt_mono {a b : ℚ} (h : a ≤ b) : truncToInt a ≤ truncToInt b := by
  unfold truncToInt
  by_cases ha : 0 ≤ a
  · have hb : 0 ≤ b := le_trans ha h
    rw [if_pos ha, if_pos hb]
    exact Int.floor_le_floor h
  · rw [if_neg ha]
    by_cases hb : 0 ≤ b
    · rw [if_pos hb]
      have h1 : ⌈a⌉ ≤ 0 := by
        rw [Int.ceil_le]
        push_neg at ha
        exact_mod_cast ha.le
      have h2 : 0 ≤ ⌊b⌋ := Int.floor_nonneg.mpr hb
      omega
    · rw [if_neg hb]
      exact Int.ceil_le_ceil h

theorem truncToInt_intCast (n : Int) : truncToInt (n : ℚ) = n := by
  unfold truncToInt
  split_ifs <;> simp

theorem delay_antitone {s1 s2 : ℚ} (h : s1 ≤ s2) : delay s2 ≤ delay s1 := by
  unfold delay
  apply truncToInt_mono
  linarith

theorem delay_zero : delay 0 = 1000 := by
  have h : ((1 : ℚ) - 0) * 1000 = ((1000 : Int) : ℚ) := by norm_num
  unfold delay
  rw [h, truncToInt_intCast]

theorem delay_one : delay 1 = 0 := by
  have h : ((1 : ℚ) - 1) * 1000 = ((0 : Int) : ℚ) := by norm_num
  unfold delay
  rw [h, truncToInt_intCast]

/-- C8: the delay computed by `compete` goes the other way round than the
comments of the source say: speed 0 (documented as the fastest) sleeps 1000 ms
and speed 1 sleeps 0 ms, so `delay 0 ≤ delay 1` fails; in general a lower speed
value never gives a shorter delay. For every speed in [0,1] the delay lies in
0..1000. -/
theorem C8_delay_grows_as_speed_falls :
    delay 0 = 1000 ∧ delay 1 = 0 ∧ ¬ (delay 0 ≤ delay 1) ∧
      (∀ s1 s2 : ℚ, s1 < s2 → delay s2 ≤ delay s1) ∧
      (∀ s : ℚ, 0 ≤ s → s ≤ 1 → 0 ≤ delay s ∧ delay s ≤ 1000) := by
  refine ⟨delay_zero, delay_one, ?_, ?_, ?_⟩
  · rw [delay_zero, delay_one]
    decide
  · intro s1 s2 h
    exact delay_antitone h.le
  · intro s h0 h1
    constructor
    · rw [← delay_one]
      exact delay_antitone h1
    · rw [← delay_zero]
      exact delay_antitone h0

/-! ## Selection weights -/

theorem weightDenominator_eq {w : Int} (h0 : 0 ≤ w) (h1 : w ≤ 2147483647) :
    weightDenominator w = (1 + (w : ℚ)) ^ 2 := by
  unfold weightDenominator
  by_cases h : w = 2147483647
  · subst h
    have : wrapInt (1 + 2147483647) = -2147483648 := by decide
    rw [this]
    norm_num
  · have : wrapInt (1 + w) = 1 + w := by
      unfold wrapInt
      omega
    rw [this]
    push_cast
    ring

theorem weight_eq {w : Int} (h0 : 0 ≤ w) (h1 : w ≤ 2147483647) :
    weight w = 1 / (1 + (w : ℚ)) ^ 2 := by
  unfold weight
  rw [weightDenominator_eq h0 h1]

theorem weight_pos {w : Int} (h0 : 0 ≤ w) (h1 : w ≤ 2147483647) : 0 < weight w := by
  rw [weight_eq h0 h1]
  have : (0 : ℚ) ≤ (w : ℚ) := by exact_mod_cast h0
  positivity

theorem weight_strictAnti {a b : Int} (ha : 0 ≤ a) (hab : a < b) (hb : b ≤ 2147483647) :
    weight b < weight a := by
  rw [weight_eq ha (by omega), weight_eq (by omega) hb]
  have h0 : (0 : ℚ) ≤ (a : ℚ) := by exact_mod_cast ha
  have h1 : (a : ℚ) < (b : ℚ) := by exact_mod_cast hab
  apply one_div_lt_one_div_of_lt
  · positivity
  · exact pow_lt_pow_left₀ (by linarith) (by linarith) (by norm_num)

theorem weights_getD (ps : List Participant) (i : Nat) (p : Participant)
    (h : ps[i]? = some p) : (weights ps).getD i 0 = weight p.winCount := by
  unfold weights
  simp [List.getD, h]

theorem weights_sum_pos (ps : List Participant) (p : Participant) (hp : p ∈ ps)
    (hall : ∀ q ∈ ps, 0 ≤ q.winCount ∧ q.winCount ≤ 2147483647) :
    0 < (weights ps).sum := by
  unfold weights
  apply List.sum_pos
  · intro x hx
    rw [List.mem_map] at hx
    obtain ⟨q, hq, rfl⟩ := hx
    exact weight_pos (hall q hq).1 (hall q hq).2
  · intro h
    rw [List.map_eq_nil_iff] at h
    rw [h] at hp
    exact absurd hp (List.not_mem_nil _)

/-- C9: for every non-negative `int` win count the weight computed in `main` is
1 / (1 + winCount)^2 and is strictly positive; and for two participants of the
same table with winCount a < winCount b, the weight of the second is strictly
smaller and so is its probability weight / sum(weights) of being drawn. -/
theorem C9_weight_decreases_with_wins (ps : List Participant) (i j : Nat)
    (a b : Participant)
    (hall : ∀ q ∈ ps, 0 ≤ q.winCount ∧ q.winCount ≤ 2147483647)
    (hi : ps[i]? = some a) (hj : ps[j]? = some b) (hlt : a.winCount < b.winCount) :
    (∀ w : Int, 0 ≤ w → w ≤ 2147483647 →
        weight w = 1 / (1 + (w : ℚ)) ^ 2 ∧ 0 < weight w) ∧
      weight b.winCount < weight a.winCount ∧
      drawProbability (weights ps) j < drawProbability (weights ps) i := by
  have ha := hall a (List.getElem?_mem hi)
  have hb := hall b (List.getElem?_mem hj)
  have hw := weight_strictAnti ha.1 hlt hb.2
  refine ⟨fun w h0 h1 => ⟨weight_eq h0 h1, weight_pos h0 h1⟩, hw, ?_⟩
  unfold drawProbability
  rw [weights_getD ps i a hi, weights_getD ps j b hj]
  exact div_lt_div_of_pos_right hw (weights_sum_pos ps a (List.getElem?_mem hi) hall)

theorem C9_weight_decreases_with_wins_witness :
    (∀ q ∈ [(⟨0, 0, 0⟩ : Participant), ⟨1, 3, 0⟩], 0 ≤ q.winCount ∧ q.winCount ≤ 2147483647) ∧
      ((0 : Int) < 3) ∧
      ((∀ w : Int, 0 ≤ w → w ≤ 2147483647 →
          weight w = 1 / (1 + (w : ℚ)) ^ 2 ∧ 0 < weight w) ∧
        weight 3 < weight 0 ∧
        drawProbability (weights [(⟨0, 0, 0⟩ : Participant), ⟨1, 3, 0⟩]) 1 <
          drawProbability (weights [(⟨0, 0, 0⟩ : Participant), ⟨1, 3, 0⟩]) 0) :=
  ⟨by simp, by decide,
    C9_weight_decreases_with_wins [⟨0, 0, 0⟩, ⟨1, 3, 0⟩] 0 1 ⟨0, 0, 0⟩ ⟨1, 3, 0⟩
      (by simp) rfl rfl (by decide)⟩

/-! ## Statistics -/

/-- The `int` product `p.winCount * p.winCount` of the statistics loop is exact
for win counts up to 46340. -/
theorem square_fits_int (w : Int) (h0 : 0 ≤ w) (h1 : w ≤ 46340) : wrapInt (w * w) = w * w := by
  apply wrapInt_of_fits
  unfold fitsInt
  constructor <;> nlinarith

theorem statsLoop_sums (ps : List Participant) (acc : ℚ × ℚ × Int × Int) :
    (ps.foldl statsStep acc).1 = acc.1 + (ps.map (fun p => (p.winCount : ℚ))).sum ∧
      (ps.foldl statsStep acc).2.1 =
        acc.2.1 + (ps.map (fun p => ((wrapInt (p.winCount * p.winCount) : Int) : ℚ))).sum := by
  induction ps generalizing acc with
  | nil => simp
  | cons p ps ih =>
    simp only [List.foldl_cons, List.map_cons, List.sum_cons]
    rw [(ih _).1, (ih _).2]
    simp only [statsStep]
    constructor <;> ring

/-- As long as no win count exceeds 46340 the squares added up are the exact squares. -/
theorem wrapped_squares_exact (ps : List Participant)
    (h : ∀ p ∈ ps, 0 ≤ p.winCount ∧ p.winCount ≤ 46340) :
    (ps.map (fun p => ((wrapInt (p.winCount * p.winCount) : Int) : ℚ))).sum =
      (ps.map (fun p => (p.winCount : ℚ) ^ 2)).sum := by
  induction ps with
  | nil => rfl
  | cons p ps ih =>
    simp only [List.map_cons, List.sum_cons]
    rw [ih (fun q hq => h q (List.mem_cons_of_mem _ hq)),
      square_fits_int p.winCount (h p (List.mem_cons_self _ _)).1
        (h p (List.mem_cons_self _ _)).2]
    push_cast
    ring

theorem statsLoop_min (ps : List Participant) (acc : ℚ × ℚ × Int × Int) :
    (ps.foldl statsStep acc).2.2.1 ≤ acc.2.2.1 ∧
      (∀ p ∈ ps, (ps.foldl statsStep acc).2.2.1 ≤ p.winCount) ∧
      ((ps.foldl statsStep acc).2.2.1 = acc.2.2.1 ∨
        ∃ p ∈ ps, p.winCount = (ps.foldl statsStep acc).2.2.1) := by
  induction ps generalizing acc with
  | nil => simp
  | cons p ps ih =>
    simp only [List.foldl_cons]
    obtain ⟨h1, h2, h3⟩ := ih (statsStep acc p)
    have hs : (statsStep acc p).2.2.1 = min acc.2.2.1 p.winCount := rfl
    refine ⟨?_, ?_, ?_⟩
    · rw [hs] at h1
      exact le_trans h1 (min_le_left _ _)
    · intro q hq
      rcases List.mem_cons.1 hq with rfl | hq
      · rw [hs] at h1
        exact le_trans h1 (min_le_right _ _)
      · exact h2 q hq
    · rcases h3 with h3 | ⟨q, hq, h3⟩
      · rw [hs] at h3
        rcases min_choice acc.2.2.1 p.winCount with hm | hm
        · left; rw [h3, hm]
        · right; exact ⟨p, List.mem_cons_self _ _, by rw [h3, hm]⟩
      · right; exact ⟨q, List.mem_cons_of_mem _ hq, h3⟩

theorem statsLoop_max (ps : List Participant) (acc : ℚ × ℚ × Int × Int) :
    acc.2.2.2 ≤ (ps.foldl statsStep acc).2.2.2 ∧
      (∀ p ∈ ps, p.winCount ≤ (ps.foldl statsStep acc).2.2.2) ∧
      ((ps.foldl statsStep acc).2.2.2 = acc.2.2.2 ∨
        ∃ p ∈ ps, p.winCount = (ps.foldl statsStep acc).2.2.2) := by
  induction ps generalizing acc with
  | nil => simp
  | cons p ps ih =>
    simp only [List.foldl_cons]
    obtain ⟨h1, h2, h3⟩ := ih (statsStep acc p)
    have hs : (statsStep acc p).2.2.2 = max acc.2.2.2 p.winCount := rfl
    refine ⟨?_, ?_, ?_⟩
    · rw [hs] at h1
      exact le_trans (le_max_left _ _) h1
    · intro q hq
      rcases List.mem_cons.1 hq with rfl | hq
      · rw [hs] at h1
        exact le_trans (le_max_right _ _) h1
      · exact h2 q hq
    · rcases h3 with h3 | ⟨q, hq, h3⟩
      · rw [hs] at h3
        rcases max_choice acc.2.2.2 p.winCount with hm | hm
        · left; rw [h3, hm]
        · right; exact ⟨p, List.mem_cons_self _ _, by rw [h3, hm]⟩
      · right; exact ⟨q, List.mem_cons_of_mem _ hq, h3⟩

/-- Expansion of the sum of squared deviations from any value `m`. -/
theorem sum_sq_dev (ps : List Participant) (m : ℚ) :
    (ps.map (fun p => ((p.winCount : ℚ) - m) ^ 2)).sum =
      (ps.map (fun p => (p.winCount : ℚ) ^ 2)).sum
        - 2 * m * (ps.map (fun p => (p.winCount : ℚ))).sum + ps.length * m ^ 2 := by
  induction ps with
  | nil => simp
  | cons p ps ih =>
    simp only [List.map_cons, List.sum_cons, List.length_cons]
    rw [ih]
    push_cast
    ring

theorem statistics_isSome (N : Int) (ps : List Participant) (h : ps ≠ []) :
    ∃ s, statistics N ps = some s := by
  cases ps with
  | nil => exact absurd rfl h
  | cons p0 tl => exact ⟨_, rfl⟩

/-- The statistics of a non-empty table whose win counts lie in 0..46340: the
mean is sum(winCount)/N, sumSq/N - mean*mean is the population variance and is
non-negative, minWin and maxWin are the least and the greatest win count, and
the gap is maxWin - minWin and non-negative. -/
theorem statistics_in_range (ps : List Participant) (h : ps ≠ [])
    (hr : ∀ p ∈ ps, 0 ≤ p.winCount ∧ p.winCount ≤ 46340) :
    ∃ s, statistics (ps.length : Int) ps = some s ∧
      s.mean = (ps.map (fun p => (p.winCount : ℚ))).sum / (ps.length : ℚ) ∧
      s.variance =
        (ps.map (fun p => ((p.winCount : ℚ) - s.mean) ^ 2)).sum / (ps.length : ℚ) ∧
      0 ≤ s.variance ∧
      (∀ p ∈ ps, s.minWin ≤ p.winCount) ∧ (∃ p ∈ ps, p.winCount = s.minWin) ∧
      (∀ p ∈ ps, p.winCount ≤ s.maxWin) ∧ (∃ p ∈ ps, p.winCount = s.maxWin) ∧
      s.gap = s.maxWin - s.minWin ∧ 0 ≤ s.gap := by
  cases ps with
  | nil => exact absurd rfl h
  | cons p0 tl =>
    have hn : ((p0 :: tl).length : ℚ) ≠ 0 := by
      simp only [List.length_cons]
      exact_mod_cast Nat.succ_ne_zero tl.length
    obtain ⟨hsum, hsq⟩ := statsLoop_sums (p0 :: tl) (0, 0, p0.winCount, p0.winCount)
    obtain ⟨-, hmin, hminA⟩ := statsLoop_min (p0 :: tl) (0, 0, p0.winCount, p0.winCount)
    obtain ⟨-, hmax, hmaxA⟩ := statsLoop_max (p0 :: tl) (0, 0, p0.winCount, p0.winCount)
    rw [wrapped_squares_exact (p0 :: tl) hr] at hsq
    simp only [zero_add] at hsum hsq
    have hminE : ∃ p ∈ p0 :: tl,
        p.winCount = ((p0 :: tl).foldl statsStep (0, 0, p0.winCount, p0.winCount)).2.2.1 := by
      rcases hminA with hA | hA
      · exact ⟨p0, List.mem_cons_self _ _, hA.symm⟩
      · exact hA
    have hmaxE : ∃ p ∈ p0 :: tl,
        p.winCount = ((p0 :: tl).foldl statsStep (0, 0, p0.winCount, p0.winCount)).2.2.2 := by
      rcases hmaxA with hA | hA
      · exact ⟨p0, List.mem_cons_self _ _, hA.symm⟩
      · exact hA
    have hgap : wrapInt
        (((p0 :: tl).foldl statsStep (0, 0, p0.winCount, p0.winCount)).2.2.2 -
          ((p0 :: tl).foldl statsStep (0, 0, p0.winCount, p0.winCount)).2.2.1) =
        ((p0 :: tl).foldl statsStep (0, 0, p0.winCount, p0.winCount)).2.2.2 -
          ((p0 :: tl).foldl statsStep (0, 0, p0.winCount, p0.winCount)).2.2.1 := by
      obtain ⟨a, ha, hae⟩ := hminE
      obtain ⟨b, hb, hbe⟩ := hmaxE
      have h1 := hr a ha
      have h2 := hr b hb
      apply wrapInt_of_fits
      unfold fitsInt
      rw [← hae, ← hbe]
      omega
    have hmean : ((p0 :: tl).foldl statsStep (0, 0, p0.winCount, p0.winCount)).1 /
        (((p0 :: tl).length : Int) : ℚ) =
        ((p0 :: tl).map (fun p => (p.winCount : ℚ))).sum / ((p0 :: tl).length : ℚ) := by
      rw [hsum]
      norm_cast
    have hvar : ((p0 :: tl).foldl statsStep (0, 0, p0.winCount, p0.winCount)).2.1 /
          (((p0 :: tl).length : Int) : ℚ) -
          ((p0 :: tl).map (fun p => (p.winCount : ℚ))).sum / ((p0 :: tl).length : ℚ) *
            (((p0 :: tl).map (fun p => (p.winCount : ℚ))).sum / ((p0 :: tl).length : ℚ)) =
        ((p0 :: tl).map (fun p => ((p.winCount : ℚ) -
          ((p0 :: tl).map (fun p => (p.winCount : ℚ))).sum / ((p0 :: tl).length : ℚ)) ^ 2)).sum /
            ((p0 :: tl).length : ℚ) := by
      rw [hsq, sum_sq_dev]
      have : ((((p0 :: tl).length : Int)) : ℚ) = ((p0 :: tl).length : ℚ) := by norm_cast
      rw [this]
      field_simp
      ring
    refine ⟨_, rfl, ?_, ?_, ?_, hmin, hminE, hmax, hmaxE, hgap, ?_⟩
    · exact hmean
    · show _ / _ - _ * _ = _
      rw [hmean]
      exact hvar
    · show 0 ≤ _ / _ - _ * _
      rw [hmean, hvar]
      apply div_nonneg
      · apply List.sum_nonneg
        intro x hx
        rw [List.mem_map] at hx
        obtain ⟨q, -, rfl⟩ := hx
        positivity
      · positivity
    · show 0 ≤ wrapInt _
      rw [hgap]
      have h1 := hmin p0 (List.mem_cons_self _ _)
      have h2 := hmax p0 (List.mem_cons_self _ _)
      omega

/-- The statistics of the one-row table with win count 46341: the `int` square
wraps to -2147479015, so sumSq/N - mean*mean comes out as -4294967296. -/
theorem statistics_overflow (id : Int) (speed : ℚ) :
    ∃ s, statistics 1 [⟨id, 46341, speed⟩] = some s ∧
      s.mean = 46341 ∧ s.sumSq = -2147479015 ∧ s.variance = -4294967296 := by
  have hw : wrapInt (46341 * 46341) = -2147479015 := by decide
  obtain ⟨hsum, hsq⟩ := statsLoop_sums [(⟨id, 46341, speed⟩ : Participant)]
    (0, 0, 46341, 46341)
  simp only [List.map_cons, List.map_nil, List.sum_cons, List.sum_nil, add_zero, zero_add,
    hw] at hsum hsq
  refine ⟨_, rfl, ?_, ?_, ?_⟩
  · show _ / _ = _
    rw [hsum]
    norm_num
  · show _ = _
    rw [hsq]
    norm_num
  · show _ / _ - _ / _ * (_ / _) = _
    rw [hsum, hsq]
    norm_num

/-! ## The selection loop -/

theorem length_le_of_nodup_lt {l : List Nat} {N : Nat} (hn : l.Nodup)
    (hl : ∀ x ∈ l, x < N) : l.length ≤ N := by
  have h1 : l.toFinset ⊆ Finset.range N := by
    intro x hx
    rw [List.mem_toFinset] at hx
    exact Finset.mem_range.2 (hl x hx)
  have h2 := Finset.card_le_card h1
  rw [List.toFinset_card_of_nodup hn, Finset.card_range] at h2
  exact h2

theorem selectLoop_some (M N : Nat) (draws selected s : List Nat)
    (hn : selected.Nodup) (hlen : selected.length ≤ M)
    (hsel : ∀ x ∈ selected, x < N) (hd : ∀ d ∈ draws, d < N)
    (h : selectLoop M draws selected = some s) :
    s.length = M ∧ s.Nodup ∧ ∀ x ∈ s, x < N := by
  induction draws generalizing selected with
  | nil =>
    unfold selectLoop at h
    split_ifs at h with hlt
    simp only [Option.some.injEq] at h
    subst h
    exact ⟨by omega, hn, hsel⟩
  | cons d ds ih =>
    unfold selectLoop at h
    split_ifs at h with hlt
    · refine ih (selected.insert d) (hn.insert) ?_ ?_ ?_ h
      · by_cases hm : d ∈ selected
        · rw [List.insert_of_mem hm]; exact hlen
        · rw [List.length_insert_of_not_mem hm]; omega
      · intro x hx
        rcases List.mem_insert_iff.1 hx with rfl | hx
        · exact hd _ (List.mem_cons_self _ _)
        · exact hsel x hx
      · intro x hx
        exact hd x (List.mem_cons_of_mem _ hx)
    · simp only [Option.some.injEq] at h
      subst h
      exact ⟨by omega, hn, hsel⟩

theorem selectLoop_isSome (M : Nat) (draws selected : List Nat)
    (h : M ≤ (selected.toFinset ∪ draws.toFinset).card) :
    ∃ s, selectLoop M draws selected = some s := by
  induction draws generalizing selected with
  | nil =>
    unfold selectLoop
    split_ifs with hlt
    · exfalso
      simp only [List.toFinset_nil, Finset.union_empty] at h
      have := List.toFinset_card_le selected
      omega
    · exact ⟨_, rfl⟩
  | cons d ds ih =>
    unfold selectLoop
    split_ifs with hlt
    · apply ih
      have : (selected.insert d).toFinset ∪ ds.toFinset =
          selected.toFinset ∪ (d :: ds).toFinset := by
        ext x
        simp only [Finset.mem_union, List.mem_toFinset, List.mem_insert_iff, List.mem_cons]
        tauto
      rw [this]
      exact h
    · exact ⟨_, rfl⟩

theorem selectLoop_none (M N : Nat) (draws selected : List Nat) (hNM : N < M)
    (hn : selected.Nodup) (hsel : ∀ x ∈ selected, x < N) (hd : ∀ d ∈ draws, d < N) :
    selectLoop M draws selected = none := by
  induction draws generalizing selected with
  | nil =>
    have := length_le_of_nodup_lt hn hsel
    unfold selectLoop
    rw [if_pos (by omega)]
  | cons d ds ih =>
    have := length_le_of_nodup_lt hn hsel
    unfold selectLoop
    rw [if_pos (by omega)]
    refine ih (selected.insert d) hn.insert ?_ ?_
    · intro x hx
      rcases List.mem_insert_iff.1 hx with rfl | hx
      · exact hd _ (List.mem_cons_self _ _)
      · exact hsel x hx
    · intro x hx
      exact hd x (List.mem_cons_of_mem _ hx)

theorem startThreads_who (shuffles : Nat → List Nat) (k : Nat) (selected : List Nat) :
    (startThreads shuffles k selected).map Thread.who = selected := by
  induction selected generalizing k with
  | nil => rfl
  | cons a l ih => simp [startThreads, ih]

theorem startThreads_length (shuffles : Nat → List Nat) (k : Nat) (selected : List Nat) :
    (startThreads shuffles k selected).length = selected.length := by
  rw [← List.length_map (startThreads shuffles k selected) Thread.who, startThreads_who]

/-- C2: whatever the draws (all of them indices of the table, 0..N-1), when the
selection loop exits, `selected` holds exactly M pairwise distinct indices,
each in 0..N-1, and exactly M threads are started, one on each of them. The
loop does exit as soon as the draws contain M distinct values. -/
theorem C2_selection_gives_M_distinct (N M : Nat) (draws : List Nat)
    (hd : ∀ d ∈ draws, d < N) :
    (∀ s, selectLoop M draws [] = some s →
        s.length = M ∧ s.Nodup ∧ (∀ i ∈ s, i < N) ∧
          ∀ shuffles, (startThreads shuffles 0 s).length = M ∧
            (startThreads shuffles 0 s).map Thread.who = s) ∧
      (M ≤ draws.dedup.length → ∃ s, selectLoop M draws [] = some s) := by
  constructor
  · intro s hs
    obtain ⟨h1, h2, h3⟩ := selectLoop_some M N draws [] s List.nodup_nil (Nat.zero_le _)
      (by simp) hd hs
    refine ⟨h1, h2, h3, fun shuffles => ⟨?_, startThreads_who _ _ _⟩⟩
    rw [startThreads_length, h1]
  · intro h
    apply selectLoop_isSome
    rw [List.toFinset_nil, Finset.empty_union, List.card_toFinset]
    exact h

theorem C2_selection_gives_M_distinct_witness :
    (∀ d ∈ [1, 1, 0, 2], d < 3) ∧
      ((∀ s, selectLoop 2 [1, 1, 0, 2] [] = some s →
          s.length = 2 ∧ s.Nodup ∧ (∀ i ∈ s, i < 3) ∧
            ∀ shuffles, (startThreads shuffles 0 s).length = 2 ∧
              (startThreads shuffles 0 s).map Thread.who = s) ∧
        (2 ≤ ([1, 1, 0, 2] : List Nat).dedup.length →
          ∃ s, selectLoop 2 [1, 1, 0, 2] [] = some s)) :=
  ⟨by decide, C2_selection_gives_M_distinct 3 2 [1, 1, 0, 2] (by decide)⟩

/-! ## One step of a thread -/

theorem competeStep_moves (st : RoundState) (t : Nat) : Moves st t (competeStep st t) := by
  unfold competeStep
  split
  · exact Moves.idle
  · rename_i th hth
    split
    · rename_i hp
      exact Moves.exhaust th hth hp
    · rename_i i rest hp
      split_ifs with hfree
      · exact Moves.lock th i rest hth hp hfree
      · exact Moves.miss th i rest hth hp hfree
    · rename_i hp
      exact Moves.count th hth hp
    · exact Moves.idle

theorem winIncr_length (ps : List Participant) (i : Nat) :
    (winIncr ps i).length = ps.length := by
  induction ps generalizing i with
  | nil => rfl
  | cons p ps ih =>
    cases i with
    | zero => rfl
    | succ i => simp [winIncr, ih]

theorem winIncr_getElem? (ps : List Participant) (i j : Nat) :
    (winIncr ps i)[j]? = if j = i then ps[j]?.map bump else ps[j]? := by
  induction ps generalizing i j with
  | nil => simp [winIncr]
  | cons p ps ih =>
    cases i with
    | zero =>
      cases j with
      | zero => simp [winIncr]
      | succ j => simp [winIncr]
    | succ i =>
      cases j with
      | zero => simp [winIncr]
      | succ j => simp [winIncr, ih]

theorem winSum_winIncr_le (ps : List Participant) (i : Nat) :
    winSum (winIncr ps i) ≤ winSum ps + 1 := by
  induction ps generalizing i with
  | nil => simp [winIncr, winSum]
  | cons p ps ih =>
    cases i with
    | zero => simp [winIncr, winSum, bump]; omega
    | succ i =>
      have := ih i
      simp only [winSum, winIncr, List.map_cons, List.sum_cons] at this ⊢
      omega

theorem winSum_winIncr (ps : List Participant) (i : Nat) (h : i < ps.length) :
    winSum (winIncr ps i) = winSum ps + 1 := by
  induction ps generalizing i with
  | nil => simp at h
  | cons p ps ih =>
    cases i with
    | zero => simp [winIncr, winSum, bump]; omega
    | succ i =>
      have := ih i (by simpa using h)
      simp only [winSum, winIncr, List.map_cons, List.sum_cons] at this ⊢
      omega

theorem pending_set (threads : List Thread) (t : Nat) (th th1 : Thread)
    (h : threads[t]? = some th) :
    pending (threads.set t th1) + (if th.phase = Phase.acquired then 1 else 0) =
      pending threads + (if th1.phase = Phase.acquired then 1 else 0) := by
  induction threads generalizing t with
  | nil => simp at h
  | cons a l ih =>
    cases t with
    | zero =>
      simp only [List.getElem?_cons_zero, Option.some.injEq] at h
      subst h
      simp only [pending, List.set_cons_zero, List.countP_cons, decide_eq_true_eq]
      omega
    | succ t =>
      simp only [List.getElem?_cons_succ] at h
      have := ih t h
      simp only [pending, List.set_cons_succ, List.countP_cons] at this ⊢
      omega

theorem pending_startThreads (shuffles : Nat → List Nat) (k : Nat) (selected : List Nat) :
    pending (startThreads shuffles k selected) = 0 := by
  induction selected generalizing k with
  | nil => rfl
  | cons a l ih =>
    have := ih (k + 1)
    simp only [startThreads, pending, List.countP_cons] at this ⊢
    rw [this]
    simp

/-! ## Facts that hold in every state of a round -/

theorem basicInv_start (M : Nat) (ps : List Participant) (selected : List Nat)
    (shuffles : Nat → List Nat) : BasicInv M ps (roundStart M ps selected shuffles) := by
  refine ⟨by simp [roundStart], ?_, by simp [roundStart], rfl, ?_⟩
  · intro c
    simp only [roundStart, List.map_nil, List.not_mem_nil, false_iff]
    intro h
    have := List.getElem?_mem h
    simp at this
  · simp only [roundStart, List.length_nil, Nat.cast_zero, add_zero]
    rw [pending_startThreads]
    simp

theorem basicInv_moves {M : Nat} {base : List Participant} {st st1 : RoundState} {t : Nat}
    (inv : BasicInv M base st) (hm : Moves st t st1) : BasicInv M base st1 := by
  cases hm with
  | idle => exact inv
  | exhaust th h hp =>
    refine ⟨inv.locks, inv.log_lock, inv.log_nodup, inv.plen, ?_⟩
    have := pending_set st.threads t th ⟨th.who, Phase.finished false⟩ h
    have := inv.count
    simp [hp] at *
    omega
  | lock th i rest h hp hfree =>
    have hi : i < st.chairLocks.length := by
      by_contra hc
      rw [List.getElem?_eq_none (by omega)] at hfree
      exact absurd hfree (by simp)
    refine ⟨by simpa using inv.locks, ?_, ?_, inv.plen, ?_⟩
    · intro c
      simp only [List.map_cons, List.mem_cons, List.getElem?_set]
      by_cases hc : i = c
      · subst hc
        simp [hi]
      · rw [if_neg hc, ← inv.log_lock c]
        constructor
        · rintro (h1 | h1)
          · exact absurd h1.symm hc
          · exact h1
        · intro h1
          exact Or.inr h1
    · simp only [List.map_cons, List.nodup_cons]
      refine ⟨?_, inv.log_nodup⟩
      intro hmem
      rw [inv.log_lock i, hfree] at hmem
      exact absurd hmem (by simp)
    · have := pending_set st.threads t th ⟨th.who, Phase.acquired⟩ h
      have := inv.count
      simp [hp] at *
      omega
  | miss th i rest h hp hheld =>
    refine ⟨inv.locks, inv.log_lock, inv.log_nodup, inv.plen, ?_⟩
    have := pending_set st.threads t th ⟨th.who, Phase.scanning rest⟩ h
    have := inv.count
    simp [hp] at *
    omega
  | count th h hp =>
    refine ⟨inv.locks, inv.log_lock, inv.log_nodup, ?_, ?_⟩
    · simpa [winIncr_length] using inv.plen
    · have := pending_set st.threads t th ⟨th.who, Phase.finished true⟩ h
      have := inv.count
      have := winSum_winIncr_le st.participants th.who
      simp [hp] at *
      omega

/-! ## Schedules and joins -/

theorem runSchedule_preserves (P : RoundState → Prop)
    (hP : ∀ st t st1, P st → Moves st t st1 → P st1) (st : RoundState)
    (schedule : List Nat) (h : P st) : P (runSchedule st schedule) := by
  unfold runSchedule
  induction schedule generalizing st with
  | nil => exact h
  | cons t l ih =>
    simp only [List.foldl_cons]
    exact ih _ (hP st t _ h (competeStep_moves st t))

theorem finishThread_preserves (P : RoundState → Prop)
    (hP : ∀ st t st1, P st → Moves st t st1 → P st1) (st : RoundState)
    (t : Nat) (h : P st) : P (finishThread st t) := by
  unfold finishThread
  split
  · exact h
  · exact runSchedule_preserves P hP st _ h

theorem foldl_finishThread_preserves (P : RoundState → Prop)
    (hP : ∀ st t st1, P st → Moves st t st1 → P st1) (l : List Nat) (st : RoundState)
    (h : P st) : P (l.foldl finishThread st) := by
  induction l generalizing st with
  | nil => exact h
  | cons t l ih =>
    simp only [List.foldl_cons]
    exact ih _ (finishThread_preserves P hP st t h)

theorem joinAll_preserves (P : RoundState → Prop)
    (hP : ∀ st t st1, P st → Moves st t st1 → P st1) (st : RoundState)
    (h : P st) : P (joinAll st) :=
  foldl_finishThread_preserves P hP _ st h

theorem contend_preserves (P : RoundState → Prop)
    (hP : ∀ st t st1, P st → Moves st t st1 → P st1) (M : Nat) (ps : List Participant)
    (selected : List Nat) (o : RoundOracle)
    (h : P (roundStart M ps selected o.shuffles)) : P (contend M ps selected o) :=
  joinAll_preserves P hP _ (runSchedule_preserves P hP _ _ h)

theorem moves_threads_length {st st1 : RoundState} {t : Nat} (hm : Moves st t st1) :
    st1.threads.length = st.threads.length := by
  cases hm <;> simp

theorem moves_other_thread {st st1 : RoundState} {t j : Nat} (hm : Moves st t st1)
    (hj : t ≠ j) : st1.threads[j]? = st.threads[j]? := by
  cases hm <;> simp [List.getElem?_set, hj]

theorem moves_hasReturned {st st1 : RoundState} {t j : Nat} (hm : Moves st t st1)
    (h : hasReturned st j) : hasReturned st1 j := by
  obtain ⟨th, w, hth, hw⟩ := h
  by_cases hj : t = j
  · subst hj
    cases hm with
    | idle => exact ⟨th, w, hth, hw⟩
    | exhaust th1 h1 hp => rw [hth] at h1; cases h1; rw [hw] at hp; cases hp
    | lock th1 i rest h1 hp _ => rw [hth] at h1; cases h1; rw [hw] at hp; cases hp
    | miss th1 i rest h1 hp _ => rw [hth] at h1; cases h1; rw [hw] at hp; cases hp
    | count th1 h1 hp => rw [hth] at h1; cases h1; rw [hw] at hp; cases hp
  · exact ⟨th, w, by rw [moves_other_thread hm hj]; exact hth, hw⟩

theorem competeStep_progress (st : RoundState) (t : Nat) (th : Thread)
    (h : st.threads[t]? = some th) :
    ∃ th1, (competeStep st t).threads[t]? = some th1 ∧
      stepsLeft th1.phase ≤ stepsLeft th.phase - 1 := by
  have hlt : t < st.threads.length := by
    by_contra hc
    rw [List.getElem?_eq_none (by omega)] at h
    cases h
  unfold competeStep
  rw [h]
  simp only
  split
  · rename_i hp
    exact ⟨⟨th.who, Phase.finished false⟩, by simp [List.getElem?_set, hlt],
      by simp [stepsLeft]⟩
  · rename_i i rest hp
    split_ifs
    · exact ⟨⟨th.who, Phase.acquired⟩, by simp [List.getElem?_set, hlt],
        by simp [stepsLeft, hp]⟩
    · exact ⟨⟨th.who, Phase.scanning rest⟩, by simp [List.getElem?_set, hlt],
        by simp [stepsLeft, hp]⟩
  · rename_i hp
    exact ⟨⟨th.who, Phase.finished true⟩, by simp [List.getElem?_set, hlt],
      by simp [stepsLeft]⟩
  · rename_i w hp
    exact ⟨th, h, by simp [stepsLeft, hp]⟩

theorem runSchedule_replicate_returns (n : Nat) (st : RoundState) (t : Nat) (th : Thread)
    (h : st.threads[t]? = some th) (hn : stepsLeft th.phase ≤ n) :
    hasReturned (runSchedule st (List.replicate n t)) t := by
  induction n generalizing st th with
  | zero =>
    refine ⟨th, ?_⟩
    cases hp : th.phase with
    | scanning rest => rw [hp] at hn; simp [stepsLeft] at hn
    | acquired => rw [hp] at hn; simp [stepsLeft] at hn
    | finished w => exact ⟨w, h, rfl⟩
  | succ n ih =>
    obtain ⟨th1, h1, h2⟩ := competeStep_progress st t th h
    simp only [runSchedule, List.replicate_succ, List.foldl_cons]
    exact ih (competeStep st t) th1 h1 (by omega)

theorem finishThread_returns (st : RoundState) (t : Nat) (h : t < st.threads.length) :
    hasReturned (finishThread st t) t := by
  unfold finishThread
  split
  · rename_i hnone
    rw [List.getElem?_eq_none_iff] at hnone
    omega
  · rename_i th hth
    exact runSchedule_replicate_returns _ st t th hth (le_refl _)

theorem foldl_finishThread_returns (l : List Nat) (st : RoundState) (j : Nat)
    (h : hasReturned st j ∨ (j ∈ l ∧ j < st.threads.length)) :
    hasReturned (l.foldl finishThread st) j := by
  induction l generalizing st with
  | nil =>
    rcases h with h | ⟨h, -⟩
    · exact h
    · exact absurd h (List.not_mem_nil _)
  | cons t l ih =>
    simp only [List.foldl_cons]
    apply ih
    rcases h with h | ⟨hmem, hlt⟩
    · left
      exact finishThread_preserves (fun s => hasReturned s j)
        (fun _ _ _ hs hm => moves_hasReturned hm hs) st t h
    · rcases List.mem_cons.1 hmem with rfl | hmem
      · left
        exact finishThread_returns st j hlt
      · right
        refine ⟨hmem, ?_⟩
        have := finishThread_preserves (fun s => s.threads.length = st.threads.length)
          (fun _ _ _ hs hm => (moves_threads_length hm).trans hs) st t rfl
        omega

theorem foldl_finishThread_idle (l : List Nat) (st : RoundState)
    (h : ∀ th ∈ st.threads, ∃ w, th.phase = Phase.finished w) :
    l.foldl finishThread st = st := by
  induction l with
  | nil => rfl
  | cons t l ih =>
    have ht : finishThread st t = st := by
      unfold finishThread
      cases hth : st.threads[t]? with
      | none => rfl
      | some th =>
        obtain ⟨w, hw⟩ := h th (List.getElem?_mem hth)
        simp only [hw, stepsLeft, List.replicate_zero, runSchedule, List.foldl_nil]
    rw [List.foldl_cons, ht, ih]

/-- When the schedule has already brought every thread to its end, the joins
change nothing: every complete interleaving is the run of some schedule. -/
theorem joinAll_of_all_returned (st : RoundState)
    (h : ∀ th ∈ st.threads, ∃ w, th.phase = Phase.finished w) : joinAll st = st :=
  foldl_finishThread_idle _ st h

/-- After the joins every thread of the round has returned. -/
theorem joinAll_returns (st : RoundState) (j : Nat) (h : j < st.threads.length) :
    hasReturned (joinAll st) j :=
  foldl_finishThread_returns _ st j (Or.inr ⟨List.mem_range.2 h, h⟩)

/-! ## Who wins what -/

theorem map_who_set (threads : List Thread) (t : Nat) (th : Thread) (ph : Phase)
    (h : threads[t]? = some th) :
    (threads.set t ⟨th.who, ph⟩).map Thread.who = threads.map Thread.who := by
  induction threads generalizing t with
  | nil => simp
  | cons a l ih =>
    cases t with
    | zero =>
      simp only [List.getElem?_cons_zero, Option.some.injEq] at h
      subst h
      simp
    | succ t =>
      simp only [List.getElem?_cons_succ] at h
      simp [ih t h]

theorem who_mem_of_getElem? {threads : List Thread} {j : Nat} {th : Thread}
    (h : threads[j]? = some th) : th.who ∈ threads.map Thread.who :=
  List.mem_map.2 ⟨th, List.getElem?_mem h, rfl⟩

theorem who_ne_of_nodup {threads : List Thread} (hn : (threads.map Thread.who).Nodup)
    {i j : Nat} {a b : Thread} (hi : threads[i]? = some a) (hj : threads[j]? = some b)
    (hij : i ≠ j) : a.who ≠ b.who := by
  intro heq
  have h1 : (threads.map Thread.who)[i]? = some a.who := by simp [hi]
  have h2 : (threads.map Thread.who)[j]? = some a.who := by simp [hj, heq]
  have hi_lt : i < (threads.map Thread.who).length := by
    by_contra hc
    rw [List.getElem?_eq_none (by omega)] at h1
    cases h1
  have hj_lt : j < (threads.map Thread.who).length := by
    by_contra hc
    rw [List.getElem?_eq_none (by omega)] at h2
    cases h2
  rw [List.getElem?_eq_getElem hi_lt] at h1
  rw [List.getElem?_eq_getElem hj_lt] at h2
  have := (List.Nodup.getElem_inj_iff hn).1 (Option.some.inj (h1.trans h2.symm))
  exact hij this

theorem getElem?_set_cases {α : Type} {l : List α} {t j : Nat} {a x : α}
    (h : (l.set t a)[j]? = some x) : (t = j ∧ x = a) ∨ (t ≠ j ∧ l[j]? = some x) := by
  rw [List.getElem?_set] at h
  by_cases htj : t = j
  · left
    rw [if_pos htj] at h
    split_ifs at h
    exact ⟨htj, (Option.some.inj h).symm⟩
  · right
    rw [if_neg htj] at h
    exact ⟨htj, h⟩

theorem startThreads_phase (shuffles : Nat → List Nat) (k : Nat) (sel : List Nat)
    (j : Nat) (th : Thread) (h : (startThreads shuffles k sel)[j]? = some th) :
    th.phase = Phase.scanning (shuffles (k + j)) := by
  induction sel generalizing k j with
  | nil => simp [startThreads] at h
  | cons a l ih =>
    cases j with
    | zero =>
      simp only [startThreads, List.getElem?_cons_zero, Option.some.injEq] at h
      subst h
      rfl
    | succ j =>
      simp only [startThreads, List.getElem?_cons_succ] at h
      have := ih (k + 1) j h
      rw [this]
      congr 2
      omega

theorem winInv_start (M : Nat) (ps : List Participant) (selected : List Nat)
    (shuffles : Nat → List Nat) : WinInv ps selected (roundStart M ps selected shuffles) := by
  refine ⟨startThreads_who _ _ _, ?_, fun _ _ => rfl⟩
  intro j th hth
  have := startThreads_phase shuffles 0 selected j th hth
  simp [roundStart, this]

theorem winInv_moves {base : List Participant} {cohort : List Nat} (hc : cohort.Nodup)
    {st st1 : RoundState} {t : Nat} (inv : WinInv base cohort st) (hm : Moves st t st1) :
    WinInv base cohort st1 := by
  have hn : (st.threads.map Thread.who).Nodup := by rw [inv.who]; exact hc
  cases hm with
  | idle => exact inv
  | exhaust th h hp =>
    refine ⟨by simp only [map_who_set _ _ _ _ h, inv.who], ?_, inv.other⟩
    intro j x hx
    rcases getElem?_set_cases hx with ⟨-, rfl⟩ | ⟨-, hx⟩
    · have := inv.wc t th h
      simp only [hp] at this
      simpa using this
    · exact inv.wc j x hx
  | lock th i rest h hp hfree =>
    refine ⟨by simp only [map_who_set _ _ _ _ h, inv.who], ?_, inv.other⟩
    intro j x hx
    rcases getElem?_set_cases hx with ⟨-, rfl⟩ | ⟨-, hx⟩
    · have := inv.wc t th h
      simp only [hp] at this
      simpa using this
    · exact inv.wc j x hx
  | miss th i rest h hp hheld =>
    refine ⟨by simp only [map_who_set _ _ _ _ h, inv.who], ?_, inv.other⟩
    intro j x hx
    rcases getElem?_set_cases hx with ⟨-, rfl⟩ | ⟨-, hx⟩
    · have := inv.wc t th h
      simp only [hp] at this
      simpa using this
    · exact inv.wc j x hx
  | count th h hp =>
    refine ⟨by simp only [map_who_set _ _ _ _ h, inv.who], ?_, ?_⟩
    · intro j x hx
      rcases getElem?_set_cases hx with ⟨-, rfl⟩ | ⟨htj, hx⟩
      · have := inv.wc t th h
        simp only [hp] at this
        simp only [winIncr_getElem?, if_true]
        simp at this
        rw [this]
      · have hne : x.who ≠ th.who := who_ne_of_nodup hn hx h (Ne.symm htj)
        simp only [winIncr_getElem?, if_neg hne]
        exact inv.wc j x hx
    · intro p hp1
      have hne : p ≠ th.who := by
        intro heq
        apply hp1
        rw [← inv.who, heq]
        exact who_mem_of_getElem? h
      simp only [winIncr_getElem?, if_neg hne]
      exact inv.other p hp1

/-! ## Nobody leaves empty-handed when chairs suffice -/

theorem length_lt_of_nodup_subset_not_mem {l cohort : List Nat} {a : Nat} (hl : l.Nodup)
    (hsub : ∀ p ∈ l, p ∈ cohort) (ha : a ∈ cohort) (hal : a ∉ l) :
    l.length < cohort.length := by
  have hn : (a :: l).Nodup := List.nodup_cons.2 ⟨hal, hl⟩
  have hs : (a :: l) ⊆ cohort := by
    intro x hx
    rcases List.mem_cons.1 hx with rfl | hx
    · exact ha
    · exact hsub x hx
  have := (hn.subperm hs).length_le
  simpa using this

theorem le_length_of_range_subset {l : List Nat} {M : Nat} (h : ∀ c, c < M → c ∈ l) :
    M ≤ l.length := by
  have hs : List.range M ⊆ l := by
    intro x hx
    exact h x (List.mem_range.1 hx)
  have := ((List.nodup_range M).subperm hs).length_le
  simpa using this

theorem fullInv_start (M : Nat) (ps : List Participant) (selected : List Nat)
    (shuffles : Nat → List Nat) (hcover : ∀ k c, c < M → c ∈ shuffles k) :
    FullInv M selected (roundStart M ps selected shuffles) := by
  refine ⟨by simp [roundStart], by simp [roundStart], ?_, ?_⟩
  · intro j th rest hth hp
    have := startThreads_phase shuffles 0 selected j th hth
    rw [this] at hp
    cases hp
    refine ⟨by simp [roundStart], ?_⟩
    intro c hc hnot
    exact absurd (hcover _ c hc) hnot
  · intro j th w hth hp
    have := startThreads_phase shuffles 0 selected j th hth
    rw [this] at hp
    cases hp

theorem fullInv_moves {M : Nat} {base : List Participant} {cohort : List Nat}
    (hc : cohort.Nodup) (hlen : cohort.length ≤ M) {st st1 : RoundState} {t : Nat}
    (binv : BasicInv M base st) (winv : WinInv base cohort st) (inv : FullInv M cohort st)
    (hm : Moves st t st1) : FullInv M cohort st1 := by
  have hn : (st.threads.map Thread.who).Nodup := by rw [winv.who]; exact hc
  cases hm with
  | idle => exact inv
  | exhaust th h hp =>
    exfalso
    obtain ⟨hnot, hall⟩ := inv.scan t th [] h hp
    have h1 : M ≤ (st.log.map Prod.snd).length :=
      le_length_of_range_subset
        (fun c hcM => (binv.log_lock c).2 (hall c hcM (List.not_mem_nil c)))
    have h2 : (st.log.map Prod.fst).length < cohort.length :=
      length_lt_of_nodup_subset_not_mem inv.log_who_nodup inv.log_who_sub
        (by rw [← winv.who]; exact who_mem_of_getElem? h) hnot
    simp only [List.length_map] at h1 h2
    omega
  | lock th i rest h hp hfree =>
    obtain ⟨hnot, hall⟩ := inv.scan t th (i :: rest) h hp
    have hi : i < st.chairLocks.length := by
      by_contra hcon
      rw [List.getElem?_eq_none (by omega)] at hfree
      cases hfree
    refine ⟨?_, ?_, ?_, ?_⟩
    · simp only [List.map_cons, List.nodup_cons]
      exact ⟨hnot, inv.log_who_nodup⟩
    · intro p hp1
      simp only [List.map_cons, List.mem_cons] at hp1
      rcases hp1 with rfl | hp1
      · rw [← winv.who]; exact who_mem_of_getElem? h
      · exact inv.log_who_sub p hp1
    · intro j x rest1 hx hpx
      rcases getElem?_set_cases hx with ⟨-, rfl⟩ | ⟨htj, hx⟩
      · cases hpx
      · obtain ⟨hn1, hall1⟩ := inv.scan j x rest1 hx hpx
        have hne : x.who ≠ th.who := who_ne_of_nodup hn hx h (Ne.symm htj)
        refine ⟨?_, ?_⟩
        · simp only [List.map_cons, List.mem_cons, not_or]
          exact ⟨hne, hn1⟩
        · intro c hcM hcn
          simp only [List.getElem?_set]
          by_cases hic : i = c
          · subst hic
            simp [hi]
          · rw [if_neg hic]
            exact hall1 c hcM hcn
    · intro j x w hx hpx
      rcases getElem?_set_cases hx with ⟨-, rfl⟩ | ⟨-, hx⟩
      · cases hpx
      · exact inv.fin j x w hx hpx
  | miss th i rest h hp hheld =>
    obtain ⟨hnot, hall⟩ := inv.scan t th (i :: rest) h hp
    refine ⟨inv.log_who_nodup, inv.log_who_sub, ?_, ?_⟩
    · intro j x rest1 hx hpx
      rcases getElem?_set_cases hx with ⟨-, rfl⟩ | ⟨-, hx⟩
      · cases hpx
        refine ⟨hnot, ?_⟩
        intro c hcM hcn
        by_cases hic : c = i
        · subst hic
          have hlt : c < st.chairLocks.length := by rw [binv.locks]; exact hcM
          rw [List.getElem?_eq_getElem hlt] at hheld ⊢
          cases hb : st.chairLocks[c] with
          | false => rw [hb] at hheld; exact absurd rfl hheld
          | true => rfl
        · exact hall c hcM (by simp [hic, hcn])
      · exact inv.scan j x rest1 hx hpx
    · intro j x w hx hpx
      rcases getElem?_set_cases hx with ⟨-, rfl⟩ | ⟨-, hx⟩
      · cases hpx
      · exact inv.fin j x w hx hpx
  | count th h hp =>
    refine ⟨inv.log_who_nodup, inv.log_who_sub, ?_, ?_⟩
    · intro j x rest1 hx hpx
      rcases getElem?_set_cases hx with ⟨-, rfl⟩ | ⟨-, hx⟩
      · cases hpx
      · exact inv.scan j x rest1 hx hpx
    · intro j x w hx hpx
      rcases getElem?_set_cases hx with ⟨-, rfl⟩ | ⟨-, hx⟩
      · cases hpx
        rfl
      · exact inv.fin j x w hx hpx

theorem roundInv_start (M : Nat) (ps : List Participant) (selected : List Nat)
    (shuffles : Nat → List Nat) (hcover : ∀ k c, c < M → c ∈ shuffles k) :
    RoundInv M ps selected (roundStart M ps selected shuffles) :=
  ⟨basicInv_start M ps selected shuffles, winInv_start M ps selected shuffles,
    fullInv_start M ps selected shuffles hcover⟩

theorem roundInv_moves {M : Nat} {base : List Participant} {cohort : List Nat}
    (hc : cohort.Nodup) (hlen : cohort.length ≤ M) (st : RoundState) (t : Nat)
    (st1 : RoundState) (inv : RoundInv M base cohort st) (hm : Moves st t st1) :
    RoundInv M base cohort st1 :=
  ⟨basicInv_moves inv.1 hm, winInv_moves hc inv.2.1 hm,
    fullInv_moves hc hlen inv.1 inv.2.1 inv.2.2 hm⟩

/-! ## Outcome of a round -/

theorem award_length (ps : List Participant) (cohort : List Nat) :
    (award ps cohort).length = ps.length := by
  unfold award
  induction cohort generalizing ps with
  | nil => rfl
  | cons a l ih => simp only [List.foldl_cons]; rw [ih, winIncr_length]

theorem award_getElem? (ps : List Participant) (cohort : List Nat) (hc : cohort.Nodup)
    (i : Nat) :
    (award ps cohort)[i]? = if i ∈ cohort then ps[i]?.map bump else ps[i]? := by
  unfold award
  induction cohort generalizing ps with
  | nil => simp
  | cons a l ih =>
    obtain ⟨hal, hl⟩ := List.nodup_cons.1 hc
    simp only [List.foldl_cons]
    rw [ih _ hl, winIncr_getElem?]
    by_cases hia : i = a
    · subst hia
      simp [hal]
    · simp [hia]

theorem winSum_award (ps : List Participant) (cohort : List Nat)
    (h : ∀ idx ∈ cohort, idx < ps.length) :
    winSum (award ps cohort) = winSum ps + cohort.length := by
  unfold award
  induction cohort generalizing ps with
  | nil => simp
  | cons a l ih =>
    simp only [List.foldl_cons, List.length_cons]
    rw [ih]
    · rw [winSum_winIncr ps a (h a (List.mem_cons_self _ _))]
      push_cast
      ring
    · intro idx hidx
      rw [winIncr_length]
      exact h idx (List.mem_cons_of_mem _ hidx)

theorem contend_threads_length (M : Nat) (ps : List Participant) (selected : List Nat)
    (o : RoundOracle) : (contend M ps selected o).threads.length = selected.length := by
  have := contend_preserves (fun s => s.threads.length = selected.length)
    (fun _ _ _ hs hm => (moves_threads_length hm).trans hs) M ps selected o
    (by simp [roundStart, startThreads_length])
  exact this

theorem contend_returned (M : Nat) (ps : List Participant) (selected : List Nat)
    (o : RoundOracle) (j : Nat) (h : j < selected.length) :
    hasReturned (contend M ps selected o) j := by
  unfold contend
  apply joinAll_returns
  have := runSchedule_preserves (fun s => s.threads.length = selected.length)
    (fun _ _ _ hs hm => (moves_threads_length hm).trans hs)
    (roundStart M ps selected o.shuffles) o.schedule (by simp [roundStart, startThreads_length])
  simp only at this
  omega

theorem contend_inv (M : Nat) (ps : List Participant) (selected : List Nat) (o : RoundOracle)
    (hc : selected.Nodup) (hlen : selected.length ≤ M)
    (hcover : ∀ k c, c < M → c ∈ o.shuffles k) :
    RoundInv M ps selected (contend M ps selected o) :=
  contend_preserves (RoundInv M ps selected) (roundInv_moves hc hlen) M ps selected o
    (roundInv_start M ps selected o.shuffles hcover)

/-- With at most as many threads as chairs, every thread of the round returns
through `break`. -/
theorem contend_all_win (M : Nat) (ps : List Participant) (selected : List Nat)
    (o : RoundOracle) (hc : selected.Nodup) (hlen : selected.length ≤ M)
    (hcover : ∀ k c, c < M → c ∈ o.shuffles k) (th : Thread)
    (hth : th ∈ (contend M ps selected o).threads) : th.phase = Phase.finished true := by
  obtain ⟨j, hj⟩ := List.mem_iff_getElem?.1 hth
  have hjlt : j < selected.length := by
    rw [← contend_threads_length M ps selected o]
    by_contra hcon
    rw [List.getElem?_eq_none (by omega)] at hj
    cases hj
  obtain ⟨th1, w, h1, hw⟩ := contend_returned M ps selected o j hjlt
  rw [hj] at h1
  cases h1
  have := (contend_inv M ps selected o hc hlen hcover).2.2.fin j th w hj hw
  rw [hw, this]

theorem contend_participants (M : Nat) (ps : List Participant) (selected : List Nat)
    (o : RoundOracle) (hc : selected.Nodup) (hlen : selected.length ≤ M)
    (hcover : ∀ k c, c < M → c ∈ o.shuffles k) :
    (contend M ps selected o).participants = award ps selected := by
  have inv := contend_inv M ps selected o hc hlen hcover
  apply List.ext_getElem?
  intro i
  rw [award_getElem? ps selected hc i]
  by_cases hi : i ∈ selected
  · rw [if_pos hi]
    have hmem : i ∈ (contend M ps selected o).threads.map Thread.who := by
      rw [inv.2.1.who]; exact hi
    obtain ⟨th, hth, hwho⟩ := List.mem_map.1 hmem
    obtain ⟨j, hj⟩ := List.mem_iff_getElem?.1 hth
    have hph := contend_all_win M ps selected o hc hlen hcover th hth
    have := inv.2.1.wc j th hj
    rw [hwho, if_pos hph] at this
    exact this
  · rw [if_neg hi]
    exact inv.2.1.other i hi

theorem oneRound_ok (M : Nat) (ps : List Participant) (o : RoundOracle) (st : RoundState)
    (h : oneRound M ps o = Except.ok st) :
    ∃ selected, selectLoop M o.draws [] = some selected ∧
      (∀ idx ∈ selected, idx < ps.length) ∧ st = contend M ps selected o := by
  unfold oneRound at h
  split at h
  · cases h
  · rename_i selected hsel
    split_ifs at h with hall
    refine ⟨selected, hsel, ?_, ?_⟩
    · intro idx hidx
      have := List.all_eq_true.1 hall idx hidx
      simpa using this
    · cases h
      rfl

theorem selectLoop_nodup_length (M : Nat) (draws s : List Nat)
    (h : selectLoop M draws [] = some s) : s.length = M ∧ s.Nodup := by
  have hall : ∀ d ∈ draws, d < draws.sum + 1 := by
    intro d hd
    have := List.single_le_sum (fun x _ => Nat.zero_le x) d hd
    omega
  obtain ⟨h1, h2, -⟩ := selectLoop_some M (draws.sum + 1) draws [] s List.nodup_nil
    (Nat.zero_le _) (by simp) hall h
  exact ⟨h1, h2⟩

/-! ## Chairs and wins within one round -/

theorem basicInv_log_bound {M : Nat} {base : List Participant} {st : RoundState}
    (inv : BasicInv M base st) :
    (∀ c ∈ st.log.map Prod.snd, c < M) ∧ st.log.length ≤ M ∧
      winSum st.participants - winSum base ≤ st.log.length ∧
      winSum st.participants - winSum base ≤ M := by
  have h1 : ∀ c ∈ st.log.map Prod.snd, c < M := by
    intro c hc
    have := (inv.log_lock c).1 hc
    rw [← inv.locks]
    by_contra hcon
    rw [List.getElem?_eq_none (by omega)] at this
    cases this
  have h2 : st.log.length ≤ M := by
    have := length_le_of_nodup_lt inv.log_nodup h1
    simpa using this
  have h3 := inv.count
  refine ⟨h1, h2, by omega, by omega⟩

theorem same_winner_of_nodup {log : List (Nat × Nat)} (hn : (log.map Prod.snd).Nodup)
    {p q c : Nat} (hp : (p, c) ∈ log) (hq : (q, c) ∈ log) : p = q := by
  have := List.inj_on_of_nodup_map hn hp hq rfl
  exact (Prod.mk.inj this).1

theorem basicInv_summary {M : Nat} {base : List Participant} {st : RoundState}
    (inv : BasicInv M base st) :
    (st.log.map Prod.snd).Nodup ∧
      (∀ p q c, (p, c) ∈ st.log → (q, c) ∈ st.log → p = q) ∧
      (∀ c ∈ st.log.map Prod.snd, c < M) ∧
      st.log.length ≤ M ∧
      winSum st.participants - winSum base ≤ st.log.length ∧
      winSum st.participants - winSum base ≤ M := by
  obtain ⟨h1, h2, h3, h4⟩ := basicInv_log_bound inv
  exact ⟨inv.log_nodup, fun p q c hp hq => same_winner_of_nodup inv.log_nodup hp hq,
    h1, h2, h3, h4⟩

/-- C3: with `try_lock` an atomic test-and-set and all chairs free when the
threads start, in the state after the joins, whatever the cohort, the shuffles
and the schedule: no chair occurs twice among the successful acquisitions (two
acquisitions of one chair are by the same participant and are the same
acquisition), every chair acquired is one of the M chairs, there are at most M
acquisitions, and the win counts have grown by at most the number of
acquisitions, hence by at most M in total. The same holds in every state the
round can reach on the way. -/
theorem C3_chair_acquired_at_most_once (M : Nat) (ps : List Participant)
    (selected : List Nat) (o : RoundOracle) :
    ((contend M ps selected o).log.map Prod.snd).Nodup ∧
      (∀ p q c, (p, c) ∈ (contend M ps selected o).log →
        (q, c) ∈ (contend M ps selected o).log → p = q) ∧
      (∀ c ∈ (contend M ps selected o).log.map Prod.snd, c < M) ∧
      (contend M ps selected o).log.length ≤ M ∧
      winSum (contend M ps selected o).participants - winSum ps ≤
        (contend M ps selected o).log.length ∧
      winSum (contend M ps selected o).participants - winSum ps ≤ M ∧
      ∀ schedule : List Nat,
        ((runSchedule (roundStart M ps selected o.shuffles) schedule).log.map Prod.snd).Nodup ∧
        (runSchedule (roundStart M ps selected o.shuffles) schedule).log.length ≤ M ∧
        winSum (runSchedule (roundStart M ps selected o.shuffles) schedule).participants
          - winSum ps ≤ M := by
  have hfinal : BasicInv M ps (contend M ps selected o) :=
    contend_preserves (BasicInv M ps) (fun _ _ _ h hm => basicInv_moves h hm) M ps selected o
      (basicInv_start M ps selected o.shuffles)
  obtain ⟨h1, h2, h3, h4, h5, h6⟩ := basicInv_summary hfinal
  refine ⟨h1, h2, h3, h4, h5, h6, ?_⟩
  intro schedule
  have hmid : BasicInv M ps (runSchedule (roundStart M ps selected o.shuffles) schedule) :=
    runSchedule_preserves (BasicInv M ps) (fun _ _ _ h hm => basicInv_moves h hm) _ _
      (basicInv_start M ps selected o.shuffles)
  obtain ⟨g1, -, -, g4, -, g6⟩ := basicInv_summary hmid
  exact ⟨g1, g4, g6⟩

theorem winInv_entry {base : List Participant} {cohort : List Nat} {st : RoundState}
    (inv : WinInv base cohort st) (i : Nat) :
    st.participants[i]? = base[i]? ∨ st.participants[i]? = base[i]?.map bump := by
  by_cases hi : i ∈ cohort
  · rw [← inv.who] at hi
    obtain ⟨th, hth, hwho⟩ := List.mem_map.1 hi
    obtain ⟨j, hj⟩ := List.mem_iff_getElem?.1 hth
    have := inv.wc j th hj
    rw [hwho] at this
    split_ifs at this
    · exact Or.inr this
    · exact Or.inl this
  · exact Or.inl (inv.other i hi)

/-- C4: in a round that is played, the table keeps its length and every
participant's entry keeps its id and speed while its winCount either stays the
same or grows by exactly one; in particular it does not decrease. -/
theorem C4_win_count_grows_by_at_most_one (M : Nat) (ps : List Participant)
    (o : RoundOracle) (st : RoundState) (h : oneRound M ps o = Except.ok st) :
    st.participants.length = ps.length ∧
      ∀ (i : Nat) (p : Participant), ps[i]? = some p → ∃ q : Participant, st.participants[i]? = some q ∧
        (q.winCount = p.winCount ∨ q.winCount = p.winCount + 1) ∧
        p.winCount ≤ q.winCount ∧ q.id = p.id ∧ q.speed = p.speed := by
  obtain ⟨selected, hsel, -, rfl⟩ := oneRound_ok M ps o st h
  have hc := (selectLoop_nodup_length M o.draws selected hsel).2
  have binv : BasicInv M ps (contend M ps selected o) :=
    contend_preserves (BasicInv M ps) (fun _ _ _ h hm => basicInv_moves h hm) M ps selected o
      (basicInv_start M ps selected o.shuffles)
  have winv : WinInv ps selected (contend M ps selected o) :=
    contend_preserves (WinInv ps selected) (fun _ _ _ h hm => winInv_moves hc h hm) M ps selected o
      (winInv_start M ps selected o.shuffles)
  refine ⟨binv.plen, ?_⟩
  intro i p hp
  rcases winInv_entry winv i with hq | hq
  · rw [hp] at hq
    exact ⟨p, hq, Or.inl rfl, le_refl _, rfl, rfl⟩
  · rw [hp] at hq
    refine ⟨bump p, hq, Or.inr rfl, ?_, rfl, rfl⟩
    simp [bump]

theorem C4_win_count_grows_by_at_most_one_witness :
    oneRound 1 [(⟨0, 0, 0⟩ : Participant), ⟨1, 4, 0⟩] ⟨[1], fun _ => [0], [0]⟩ =
        Except.ok ⟨[true], [⟨0, 0, 0⟩, ⟨1, 5, 0⟩], [⟨1, Phase.finished true⟩], [(1, 0)]⟩ ∧
      (([⟨0, 0, 0⟩, ⟨1, 5, 0⟩] : List Participant).length =
          ([⟨0, 0, 0⟩, ⟨1, 4, 0⟩] : List Participant).length ∧
        ∀ (i : Nat) (p : Participant),
          ([⟨0, 0, 0⟩, ⟨1, 4, 0⟩] : List Participant)[i]? = some p →
          ∃ q : Participant, ([⟨0, 0, 0⟩, ⟨1, 5, 0⟩] : List Participant)[i]? = some q ∧
            (q.winCount = p.winCount ∨ q.winCount = p.winCount + 1) ∧
            p.winCount ≤ q.winCount ∧ q.id = p.id ∧ q.speed = p.speed) :=
  ⟨rfl, C4_win_count_grows_by_at_most_one 1 [⟨0, 0, 0⟩, ⟨1, 4, 0⟩] ⟨[1], fun _ => [0], [0]⟩
    ⟨[true], [⟨0, 0, 0⟩, ⟨1, 5, 0⟩], [⟨1, Phase.finished true⟩], [(1, 0)]⟩ rfl⟩

/-! ## The round loop -/

theorem oneRound_played (M : Nat) (ps : List Participant) (o : RoundOracle) (st : RoundState)
    (hcover : ∀ k c, c < M → c ∈ o.shuffles k) (h : oneRound M ps o = Except.ok st) :
    ∃ selected, selectLoop M o.draws [] = some selected ∧ selected.Nodup ∧
      selected.length = M ∧ (∀ idx ∈ selected, idx < ps.length) ∧
      st.participants = award ps selected := by
  obtain ⟨selected, hsel, hidx, rfl⟩ := oneRound_ok M ps o st h
  obtain ⟨hlen, hc⟩ := selectLoop_nodup_length M o.draws selected hsel
  exact ⟨selected, hsel, hc, hlen, hidx,
    contend_participants M ps selected o hc (le_of_eq hlen) hcover⟩

theorem roundBody_ok (M : Nat) (R : Int) (o : RoundOracle) (round : Nat)
    (ps table : List Participant) (h : roundBody M R o round ps = Except.ok table) :
    ∃ st bar, oneRound M ps o = Except.ok st ∧ progressBar round R = some bar ∧
      table = st.participants := by
  unfold roundBody at h
  cases hone : oneRound M ps o with
  | error s =>
    rw [hone] at h
    cases h
  | ok st =>
    rw [hone] at h
    cases hbar : progressBar round R with
    | none =>
      rw [hbar] at h
      cases h
    | some bar =>
      rw [hbar] at h
      cases h
      exact ⟨st, bar, rfl, rfl, rfl⟩

theorem roundBody_error (M : Nat) (R : Int) (o : RoundOracle) (round : Nat)
    (ps : List Participant) (e : LoopEnd) (h : roundBody M R o round ps = Except.error e) :
    (∃ s, oneRound M ps o = Except.error s ∧ e = ⟨some s, round, ps⟩) ∨
      (∃ st, oneRound M ps o = Except.ok st ∧ progressBar round R = none ∧
        e = ⟨some Status.displayError, round + 1, st.participants⟩) := by
  unfold roundBody at h
  cases hone : oneRound M ps o with
  | error s =>
    rw [hone] at h
    cases h
    exact Or.inl ⟨s, rfl, rfl⟩
  | ok st =>
    rw [hone] at h
    cases hbar : progressBar round R with
    | none =>
      rw [hbar] at h
      cases h
      exact Or.inr ⟨st, rfl, rfl, rfl⟩
    | some bar =>
      rw [hbar] at h
      cases h

theorem roundBody_of_ok (M : Nat) (R : Int) (o : RoundOracle) (round : Nat)
    (ps : List Participant) (st : RoundState) (bar : Int × Int)
    (hone : oneRound M ps o = Except.ok st) (hbar : progressBar round R = some bar) :
    roundBody M R o round ps = Except.ok st.participants := by
  unfold roundBody
  rw [hone, hbar]

theorem roundsLoop_zero (M : Nat) (R : Int) (oracle : Nat → RoundOracle) (round : Nat)
    (ps : List Participant) : roundsLoop M R oracle 0 round ps = ⟨none, round, ps⟩ := by
  rw [roundsLoop]

theorem roundsLoop_succ (M : Nat) (R : Int) (oracle : Nat → RoundOracle) (todo round : Nat)
    (ps : List Participant) :
    roundsLoop M R oracle (todo + 1) round ps =
      match roundBody M R (oracle round) round ps with
      | Except.error e => e
      | Except.ok table => roundsLoop M R oracle todo (round + 1) table := by
  rw [roundsLoop]

/-- What one played round does to the table. -/
theorem played_round_facts (M : Nat) (oracle : Nat → RoundOracle) (round : Nat)
    (ps : List Participant) (st : RoundState)
    (hcover : ∀ k c, c < M → c ∈ (oracle round).shuffles k)
    (hone : oneRound M ps (oracle round) = Except.ok st) :
    st.participants.length = ps.length ∧
      (∃ selected, selectLoop M (oracle round).draws [] = some selected ∧
        ∀ idx ∈ selected, idx < ps.length) ∧
      (∀ (i : Nat) (p : Participant), ps[i]? = some p →
        ∃ q : Participant, st.participants[i]? = some q ∧
          q.winCount + appearances M oracle i round =
            p.winCount + appearances M oracle i (round + 1) ∧
          q.id = p.id ∧ q.speed = p.speed) ∧
      winSum st.participants + (M : Int) * round =
        winSum ps + (M : Int) * ((round + 1 : Nat) : Int) := by
  obtain ⟨selected, hsel, hc, hlen, hidx, hps⟩ :=
    oneRound_played M ps (oracle round) st hcover hone
  have hcoh : cohortOf M oracle round = selected := by
    simp [cohortOf, hsel]
  refine ⟨by rw [hps, award_length], ⟨selected, hsel, hidx⟩, ?_, ?_⟩
  · intro i p hp
    rw [hps, award_getElem? ps selected hc i, hp]
    simp only [appearances, hcoh]
    by_cases hi : i ∈ selected
    · refine ⟨bump p, by simp [hi], ?_, rfl, rfl⟩
      simp only [bump, hi, if_true]
      push_cast
      ring
    · refine ⟨p, by simp [hi], ?_, rfl, rfl⟩
      simp [hi]
  · rw [hps, winSum_award ps selected hidx, hlen]
    push_cast
    ring

theorem roundsLoop_facts (M : Nat) (R : Int) (oracle : Nat → RoundOracle)
    (hcover : ∀ r k c, c < M → c ∈ (oracle r).shuffles k) (todo round : Nat)
    (ps : List Participant) :
    (roundsLoop M R oracle todo round ps).participants.length = ps.length ∧
      round ≤ (roundsLoop M R oracle todo round ps).rounds ∧
      (roundsLoop M R oracle todo round ps).rounds ≤ round + todo ∧
      ((roundsLoop M R oracle todo round ps).fault = none →
        (roundsLoop M R oracle todo round ps).rounds = round + todo) ∧
      (∀ r, round ≤ r → r < (roundsLoop M R oracle todo round ps).rounds →
        ∃ selected, selectLoop M (oracle r).draws [] = some selected ∧
          ∀ idx ∈ selected, idx < ps.length) ∧
      (∀ (i : Nat) (p : Participant), ps[i]? = some p →
        ∃ q : Participant, (roundsLoop M R oracle todo round ps).participants[i]? = some q ∧
          q.winCount + appearances M oracle i round =
            p.winCount + appearances M oracle i (roundsLoop M R oracle todo round ps).rounds ∧
          q.id = p.id ∧ q.speed = p.speed) ∧
      winSum (roundsLoop M R oracle todo round ps).participants + (M : Int) * round =
        winSum ps + (M : Int) * (roundsLoop M R oracle todo round ps).rounds := by
  induction todo generalizing round ps with
  | zero =>
    rw [roundsLoop_zero]
    refine ⟨rfl, le_refl _, le_refl _, fun _ => rfl, ?_, ?_, rfl⟩
    · intro r h1 h2
      exact absurd h2 (by simp only; omega)
    · intro i p hp
      exact ⟨p, hp, rfl, rfl, rfl⟩
  | succ todo ih =>
    rw [roundsLoop_succ]
    cases hb : roundBody M R (oracle round) round ps with
    | error e =>
      simp only
      rcases roundBody_error M R _ round ps e hb with ⟨s, -, rfl⟩ | ⟨st, hone, -, rfl⟩
      · refine ⟨rfl, le_refl _, Nat.le_add_right _ _, fun h => (by cases h), ?_, ?_, rfl⟩
        · intro r h1 h2
          exact absurd h2 (by simp only; omega)
        · intro i p hp
          exact ⟨p, hp, rfl, rfl, rfl⟩
      · obtain ⟨g1, g2, g3, g4⟩ :=
          played_round_facts M oracle round ps st (hcover round) hone
        refine ⟨g1, Nat.le_succ _, (by simp only; omega), fun h => (by cases h), ?_, g3, g4⟩
        intro r h1 h2
        have : r = round := by simp only at h2; omega
        subst this
        exact g2
    | ok table =>
      simp only
      obtain ⟨st, bar, hone, -, rfl⟩ := roundBody_ok M R _ round ps table hb
      obtain ⟨g1, g2, g3, g4⟩ :=
        played_round_facts M oracle round ps st (hcover round) hone
      obtain ⟨i1, i2, i3, i4, i5, i6, i7⟩ := ih (round + 1) st.participants
      refine ⟨by rw [i1, g1], by omega, by omega, fun h => ?_, ?_, ?_, ?_⟩
      · have := i4 h
        omega
      · intro r h1 h2
        by_cases hr : r = round
        · subst hr
          exact g2
        · obtain ⟨sel, hs1, hs2⟩ := i5 r (by omega) h2
          exact ⟨sel, hs1, fun idx hidx1 => by rw [← g1]; exact hs2 idx hidx1⟩
      · intro i p hp
        obtain ⟨q, hq, hq1, hq2, hq3⟩ := g3 i p hp
        obtain ⟨q1, hq4, hq5, hq6, hq7⟩ := i6 i q hq
        refine ⟨q1, hq4, ?_, by rw [hq6, hq2], by rw [hq7, hq3]⟩
        omega
      · push_cast at i7 g4 ⊢
        linarith

theorem oneRound_length (M : Nat) (ps : List Participant) (o : RoundOracle) (st : RoundState)
    (h : oneRound M ps o = Except.ok st) : st.participants.length = ps.length := by
  obtain ⟨selected, -, -, rfl⟩ := oneRound_ok M ps o st h
  exact (contend_preserves (BasicInv M ps) (fun _ _ _ h hm => basicInv_moves h hm) M ps selected o
    (basicInv_start M ps selected o.shuffles)).plen

theorem oneRound_same_kind (M : Nat) (ps1 ps2 : List Participant) (o1 o2 : RoundOracle)
    (hd : o1.draws = o2.draws) (hl : ps1.length = ps2.length) :
    (∃ s, oneRound M ps1 o1 = Except.error s ∧ oneRound M ps2 o2 = Except.error s) ∨
      (∃ st1 st2, oneRound M ps1 o1 = Except.ok st1 ∧ oneRound M ps2 o2 = Except.ok st2) := by
  unfold oneRound
  rw [hd, hl]
  cases selectLoop M o2.draws [] with
  | none => exact Or.inl ⟨_, rfl, rfl⟩
  | some selected =>
    simp only
    split_ifs
    · exact Or.inr ⟨_, _, rfl, rfl⟩
    · exact Or.inl ⟨_, rfl, rfl⟩

theorem roundBody_of_error (M : Nat) (R : Int) (o : RoundOracle) (round : Nat)
    (ps : List Participant) (s : Status) (hone : oneRound M ps o = Except.error s) :
    roundBody M R o round ps = Except.error ⟨some s, round, ps⟩ := by
  unfold roundBody
  rw [hone]

theorem roundBody_of_display (M : Nat) (R : Int) (o : RoundOracle) (round : Nat)
    (ps : List Participant) (st : RoundState)
    (hone : oneRound M ps o = Except.ok st) (hbar : progressBar round R = none) :
    roundBody M R o round ps =
      Except.error ⟨some Status.displayError, round + 1, st.participants⟩ := by
  unfold roundBody
  rw [hone, hbar]

/-- How far the round loop gets depends on the draws and on the size of the
table only, not on the shuffles, the schedules or the entries of the table. -/
theorem roundsLoop_indep (M : Nat) (R : Int) (o1 o2 : Nat → RoundOracle)
    (hd : ∀ r, (o1 r).draws = (o2 r).draws) (todo round : Nat) (ps1 ps2 : List Participant)
    (hl : ps1.length = ps2.length) :
    (roundsLoop M R o1 todo round ps1).rounds = (roundsLoop M R o2 todo round ps2).rounds ∧
      (roundsLoop M R o1 todo round ps1).fault = (roundsLoop M R o2 todo round ps2).fault := by
  induction todo generalizing round ps1 ps2 with
  | zero =>
    rw [roundsLoop_zero, roundsLoop_zero]
    exact ⟨rfl, rfl⟩
  | succ todo ih =>
    rw [roundsLoop_succ, roundsLoop_succ]
    rcases oneRound_same_kind M ps1 ps2 (o1 round) (o2 round) (hd round) hl with
      ⟨s, h1, h2⟩ | ⟨st1, st2, h1, h2⟩
    · rw [roundBody_of_error M R _ round ps1 s h1, roundBody_of_error M R _ round ps2 s h2]
      exact ⟨rfl, rfl⟩
    · cases hbar : progressBar round R with
      | none =>
        rw [roundBody_of_display M R _ round ps1 st1 h1 hbar,
          roundBody_of_display M R _ round ps2 st2 h2 hbar]
        exact ⟨rfl, rfl⟩
      | some bar =>
        rw [roundBody_of_ok M R _ round ps1 st1 bar h1 hbar,
          roundBody_of_ok M R _ round ps2 st2 bar h2 hbar]
        apply ih
        rw [oneRound_length M ps1 _ st1 h1, oneRound_length M ps2 _ st2 h2, hl]

theorem progressBar_isSome (round R : Nat) (h : round < R) (hr : round ≤ 42949672) :
    ∃ bar, progressBar round R = some bar := by
  have hw : wrapInt ((round : Int) * 50) = (round : Int) * 50 := by
    unfold wrapInt
    omega
  have hRpos : (0 : Int) < R := by omega
  have h0 : (0 : Int) ≤ (round : Int) * 50 := by omega
  have hdiv : Int.tdiv ((round : Int) * 50) R = (round : Int) * 50 / R :=
    Int.tdiv_eq_ediv h0 hRpos.le
  have h1 : (0 : Int) ≤ (round : Int) * 50 / R := Int.ediv_nonneg h0 hRpos.le
  have h2 : (round : Int) * 50 / R < 50 := by
    apply Int.ediv_lt_of_lt_mul hRpos
    have : (round : Int) < R := by exact_mod_cast h
    omega
  have hw2 : wrapInt (50 - (round : Int) * 50 / R) = 50 - (round : Int) * 50 / R := by
    unfold wrapInt
    omega
  unfold progressBar
  simp only [hw, hdiv, hw2]
  rw [if_pos ⟨h1, by omega⟩]
  exact ⟨_, rfl⟩

theorem oneRound_isOk (M N : Nat) (ps : List Participant) (o : RoundOracle)
    (hlen : ps.length = N) (hd : ∀ d ∈ o.draws, d < N) (hfair : M ≤ o.draws.dedup.length) :
    ∃ st, oneRound M ps o = Except.ok st := by
  obtain ⟨selected, hsel⟩ : ∃ s, selectLoop M o.draws [] = some s := by
    apply selectLoop_isSome
    rw [List.toFinset_nil, Finset.empty_union, List.card_toFinset]
    exact hfair
  obtain ⟨-, -, hidx⟩ := selectLoop_some M N o.draws [] selected List.nodup_nil
    (Nat.zero_le _) (by simp) hd hsel
  unfold oneRound
  rw [hsel]
  simp only
  rw [if_pos]
  · exact ⟨_, rfl⟩
  · rw [List.all_eq_true]
    intro idx hmem
    simpa [hlen] using hidx idx hmem

/-- The round loop runs to its end when, in every round, the draws are indices
of the table and reach `M` distinct values, and `R` is small enough for the
progress bar arithmetic. -/
theorem roundsLoop_completes (M N R : Nat) (oracle : Nat → RoundOracle) (hR : R ≤ 42949673)
    (hdraw : ∀ r, r < R →
      (∀ d ∈ (oracle r).draws, d < N) ∧ M ≤ (oracle r).draws.dedup.length)
    (todo round : Nat) (ps : List Participant) (hlen : ps.length = N)
    (hsum : round + todo = R) :
    (roundsLoop M (R : Int) oracle todo round ps).fault = none := by
  induction todo generalizing round ps with
  | zero => rw [roundsLoop_zero]
  | succ todo ih =>
    obtain ⟨hd, hfair⟩ := hdraw round (by omega)
    obtain ⟨st, hst⟩ := oneRound_isOk M N ps (oracle round) hlen hd hfair
    obtain ⟨bar, hbar⟩ := progressBar_isSome round R (by omega) (by omega)
    rw [roundsLoop_succ, roundBody_of_ok M R _ round ps st bar hst hbar]
    apply ih
    · rw [oneRound_length M ps _ st hst, hlen]
    · omega

/-! ## The table at the start and the report at the end -/

theorem initial_table_length (N : Nat) (speeds : Nat → ℚ) :
    (sortBySpeed (initParticipants N speeds)).length = N := by
  unfold sortBySpeed initParticipants
  rw [List.length_insertionSort]
  simp

theorem initial_table_zero (N : Nat) (speeds : Nat → ℚ) (p : Participant)
    (h : p ∈ sortBySpeed (initParticipants N speeds)) : p.winCount = 0 := by
  unfold sortBySpeed at h
  rw [List.mem_insertionSort] at h
  unfold initParticipants at h
  rw [List.mem_map] at h
  obtain ⟨i, -, rfl⟩ := h
  rfl

theorem winSum_eq_zero (ps : List Participant) (h : ∀ p ∈ ps, p.winCount = 0) :
    winSum ps = 0 := by
  induction ps with
  | nil => rfl
  | cons p ps ih =>
    simp only [winSum, List.map_cons, List.sum_cons]
    rw [h p (List.mem_cons_self _ _)]
    have := ih (fun q hq => h q (List.mem_cons_of_mem _ hq))
    simp only [winSum] at this
    rw [this]
    rfl

theorem report_participants (N : Int) (loop : LoopEnd) :
    (report N loop).participants = loop.participants ∧
      (report N loop).roundsCompleted = loop.rounds := by
  unfold report
  split
  · exact ⟨rfl, rfl⟩
  · split <;> exact ⟨rfl, rfl⟩

theorem report_exit_zero (N : Int) (loop : LoopEnd) (h : (report N loop).exitCode = some 0) :
    loop.fault = none := by
  unfold report at h
  split at h
  · simp at h
  · assumption

theorem report_returned (N : Int) (loop : LoopEnd) (hf : loop.fault = none)
    (hne : loop.participants ≠ []) :
    (report N loop).exitCode = some 0 ∧ (report N loop).status = Status.returned ∧
      (report N loop).resultsCsv =
        some (loop.participants.map (fun p => (p.id, p.winCount))) ∧
      (report N loop).stats = statistics N loop.participants ∧
      (report N loop).stats ≠ none := by
  obtain ⟨s, hs⟩ := statistics_isSome N loop.participants hne
  unfold report
  rw [hf]
  simp [hs]

theorem toSizeT_natCast (M : Nat) (h : M ≤ 2147483647) : toSizeT (M : Int) = M := by
  unfold toSizeT
  omega

/-- The run of `main` on four non-negative arguments that pass the feasibility check. -/
theorem main_run (N M R : Nat) (W : Int) (speeds : Nat → ℚ) (oracle : Nat → RoundOracle)
    (hM : M ≤ 2147483647)
    (hcheck : ¬ wrapInt ((R : Int) * M) < wrapInt ((N : Int) * W)) :
    main ⟨[some (N : Int), some (M : Int), some (R : Int), some W], speeds, oracle⟩ =
      report N (roundsLoop M R oracle R 0 (sortBySpeed (initParticipants N speeds))) := by
  rw [main_four_args _ N M R W [] rfl, if_neg hcheck, if_neg (by omega)]
  simp only [toSizeT_natCast M hM, Int.toNat_ofNat]

/-! ## Whole runs -/

theorem appearances_full (M : Nat) (oracle : Nat → RoundOracle) (i k : Nat)
    (h : ∀ r, r < k → i ∈ cohortOf M oracle r) : appearances M oracle i k = k := by
  induction k with
  | zero => rfl
  | succ k ih =>
    simp only [appearances]
    rw [ih (fun r hr => h r (by omega)), if_pos (h k (by omega))]

theorem appearances_congr (M : Nat) (o1 o2 : Nat → RoundOracle)
    (hd : ∀ r, (o1 r).draws = (o2 r).draws) (i k : Nat) :
    appearances M o1 i k = appearances M o2 i k := by
  induction k with
  | zero => rfl
  | succ k ih =>
    have hco : cohortOf M o1 k = cohortOf M o2 k := by
      unfold cohortOf
      rw [hd k]
    simp only [appearances, ih, hco]

theorem mem_of_full_cohort {selected : List Nat} {N i : Nat} (hc : selected.Nodup)
    (hlen : selected.length = N) (hidx : ∀ idx ∈ selected, idx < N) (hi : i < N) :
    i ∈ selected := by
  have hsub : selected.toFinset ⊆ Finset.range N := by
    intro x hx
    rw [List.mem_toFinset] at hx
    exact Finset.mem_range.2 (hidx x hx)
  have hcard : (Finset.range N).card ≤ selected.toFinset.card := by
    rw [List.toFinset_card_of_nodup hc, Finset.card_range, hlen]
  have := Finset.eq_of_subset_of_card_le hsub hcard
  rw [← List.mem_toFinset, this]
  exact Finset.mem_range.2 hi

theorem cover_of_perm {M : Nat} {oracle : Nat → RoundOracle}
    (h : ∀ r k, ((oracle r).shuffles k).Perm (List.range M)) :
    ∀ r k c, c < M → c ∈ (oracle r).shuffles k :=
  fun r k _ hc => (h r k).mem_iff.2 (List.mem_range.2 hc)

/-- Size of the table and number of rounds at the end of the round loop. -/
theorem roundsLoop_bounds (M : Nat) (R : Int) (oracle : Nat → RoundOracle) (todo round : Nat)
    (ps : List Participant) :
    (roundsLoop M R oracle todo round ps).participants.length = ps.length ∧
      round ≤ (roundsLoop M R oracle todo round ps).rounds ∧
      (roundsLoop M R oracle todo round ps).rounds ≤ round + todo ∧
      ((roundsLoop M R oracle todo round ps).fault = none →
        (roundsLoop M R oracle todo round ps).rounds = round + todo) := by
  induction todo generalizing round ps with
  | zero =>
    rw [roundsLoop_zero]
    exact ⟨rfl, le_refl _, le_refl _, fun _ => rfl⟩
  | succ todo ih =>
    rw [roundsLoop_succ]
    cases hb : roundBody M R (oracle round) round ps with
    | error e =>
      simp only
      rcases roundBody_error M R _ round ps e hb with ⟨s, -, rfl⟩ | ⟨st, hone, -, rfl⟩
      · exact ⟨rfl, le_refl _, Nat.le_add_right _ _, fun h => (by cases h)⟩
      · exact ⟨oneRound_length M ps _ st hone, Nat.le_succ _, (by simp only; omega),
          fun h => (by cases h)⟩
    | ok table =>
      simp only
      obtain ⟨st, bar, hone, -, rfl⟩ := roundBody_ok M R _ round ps table hb
      obtain ⟨i1, i2, i3, i4⟩ := ih (round + 1) st.participants
      refine ⟨by rw [i1, oneRound_length M ps _ st hone], by omega, by omega, fun h => ?_⟩
      have := i4 h
      omega

theorem roundsLoop_length (M : Nat) (R : Int) (oracle : Nat → RoundOracle) (todo round : Nat)
    (ps : List Participant) :
    (roundsLoop M R oracle todo round ps).participants.length = ps.length :=
  (roundsLoop_bounds M R oracle todo round ps).1

/-- The table a run ends with, for four non-negative arguments that pass the
feasibility check: it has `N` entries, entry `i` has won once for every
completed round whose cohort contained `i`, and the wins total `M` per
completed round. -/
theorem main_table (N M R : Nat) (W : Int) (speeds : Nat → ℚ) (oracle : Nat → RoundOracle)
    (hM : M ≤ 2147483647)
    (hcheck : ¬ wrapInt ((R : Int) * M) < wrapInt ((N : Int) * W))
    (hcover : ∀ r k c, c < M → c ∈ (oracle r).shuffles k) :
    (main ⟨[some (N : Int), some (M : Int), some (R : Int), some W],
        speeds, oracle⟩).participants.length = N ∧
      (∀ (i : Nat) (p : Participant),
        (main ⟨[some (N : Int), some (M : Int), some (R : Int), some W],
          speeds, oracle⟩).participants[i]? = some p →
        p.winCount = appearances M oracle i
          (main ⟨[some (N : Int), some (M : Int), some (R : Int), some W],
            speeds, oracle⟩).roundsCompleted) ∧
      winSum (main ⟨[some (N : Int), some (M : Int), some (R : Int), some W],
          speeds, oracle⟩).participants =
        (M : Int) * (main ⟨[some (N : Int), some (M : Int), some (R : Int), some W],
          speeds, oracle⟩).roundsCompleted ∧
      (∀ r, r < (main ⟨[some (N : Int), some (M : Int), some (R : Int), some W],
          speeds, oracle⟩).roundsCompleted →
        ∃ selected, selectLoop M (oracle r).draws [] = some selected ∧
          ∀ idx ∈ selected, idx < N) := by
  rw [main_run N M R W speeds oracle hM hcheck]
  obtain ⟨hp, hr⟩ := report_participants N
    (roundsLoop M R oracle R 0 (sortBySpeed (initParticipants N speeds)))
  rw [hp, hr]
  obtain ⟨f1, -, -, -, f5, f6, f7⟩ := roundsLoop_facts M R oracle hcover R 0
    (sortBySpeed (initParticipants N speeds))
  have hlen := initial_table_length N speeds
  refine ⟨by rw [f1, hlen], ?_, ?_, ?_⟩
  · intro i p hi
    have hilt : i < (sortBySpeed (initParticipants N speeds)).length := by
      rw [← f1]
      by_contra hcon
      rw [List.getElem?_eq_none (by omega)] at hi
      cases hi
    obtain ⟨q, hq, hq1, -, -⟩ := f6 i _ (List.getElem?_eq_getElem hilt)
    rw [hi] at hq
    cases hq
    have hz := initial_table_zero N speeds _ (List.getElem_mem hilt)
    rw [hz] at hq1
    simp only [appearances] at hq1
    simpa using hq1
  · have hz := winSum_eq_zero _ (initial_table_zero N speeds)
    rw [hz] at f7
    simpa using f7
  · intro r hr1
    obtain ⟨selected, h1, h2⟩ := f5 r (Nat.zero_le _) hr1
    exact ⟨selected, h1, fun idx hidx => by rw [← hlen]; exact h2 idx hidx⟩

/-- A run on four non-negative arguments that pass the feasibility check
returns 0 exactly when the round loop runs to its end and the table is not
empty; it has then played `R` rounds. -/
theorem main_exit_zero (N M R : Nat) (W : Int) (speeds : Nat → ℚ)
    (oracle : Nat → RoundOracle) (hM : M ≤ 2147483647)
    (hcheck : ¬ wrapInt ((R : Int) * M) < wrapInt ((N : Int) * W))
    (hcover : ∀ r k c, c < M → c ∈ (oracle r).shuffles k)
    (h : (main ⟨[some (N : Int), some (M : Int), some (R : Int), some W],
      speeds, oracle⟩).exitCode = some 0) :
    (main ⟨[some (N : Int), some (M : Int), some (R : Int), some W],
      speeds, oracle⟩).roundsCompleted = R := by
  rw [main_run N M R W speeds oracle hM hcheck] at h ⊢
  rw [(report_participants N _).2]
  have hf := report_exit_zero N _ h
  obtain ⟨-, -, -, f4, -⟩ := roundsLoop_facts M R oracle hcover R 0
    (sortBySpeed (initParticipants N speeds))
  have := f4 hf
  omega

/-- A run on four non-negative arguments that pass the feasibility check comes
to its end and returns 0 when the table is not empty, `R` is small enough for
the progress bar arithmetic, and in every round the draws are indices of the
table and reach `M` distinct values. -/
theorem main_completes (N M R : Nat) (W : Int) (speeds : Nat → ℚ)
    (oracle : Nat → RoundOracle) (hN1 : 1 ≤ N) (hM : M ≤ 2147483647) (hR : R ≤ 42949673)
    (hcheck : ¬ wrapInt ((R : Int) * M) < wrapInt ((N : Int) * W))
    (hdraw : ∀ r, r < R →
      (∀ d ∈ (oracle r).draws, d < N) ∧ M ≤ (oracle r).draws.dedup.length) :
    (main ⟨[some (N : Int), some (M : Int), some (R : Int), some W],
        speeds, oracle⟩).exitCode = some 0 ∧
      (main ⟨[some (N : Int), some (M : Int), some (R : Int), some W],
        speeds, oracle⟩).status = Status.returned ∧
      (main ⟨[some (N : Int), some (M : Int), some (R : Int), some W],
        speeds, oracle⟩).roundsCompleted = R ∧
      (main ⟨[some (N : Int), some (M : Int), some (R : Int), some W],
        speeds, oracle⟩).participants.length = N ∧
      (∃ csv, (main ⟨[some (N : Int), some (M : Int), some (R : Int), some W],
        speeds, oracle⟩).resultsCsv = some csv ∧ csv.length = N) ∧
      (main ⟨[some (N : Int), some (M : Int), some (R : Int), some W],
        speeds, oracle⟩).stats ≠ none := by
  rw [main_run N M R W speeds oracle hM hcheck]
  have hlen := initial_table_length N speeds
  have hf := roundsLoop_completes M N R oracle hR hdraw R 0
    (sortBySpeed (initParticipants N speeds)) hlen (by omega)
  have hl : (roundsLoop M R oracle R 0
      (sortBySpeed (initParticipants N speeds))).participants.length = N := by
    rw [roundsLoop_length, hlen]
  have hne : (roundsLoop M R oracle R 0
      (sortBySpeed (initParticipants N speeds))).participants ≠ [] := by
    intro h
    rw [h] at hl
    simp at hl
    omega
  obtain ⟨r1, r2, r3, -, r5⟩ := report_returned N _ hf hne
  obtain ⟨-, -, -, f4⟩ := roundsLoop_bounds M R oracle R 0
    (sortBySpeed (initParticipants N speeds))
  refine ⟨r1, r2, ?_, ?_, ⟨_, r3, ?_⟩, r5⟩
  · rw [(report_participants N _).2]
    have := f4 hf
    omega
  · rw [(report_participants N _).1, hl]
  · rw [List.length_map, hl]

/-! ## Runs with as many chairs as participants, and runs in general -/

theorem wins_eq_of_pointwise (l1 l2 : List Participant) (hl : l1.length = l2.length)
    (h : ∀ (i : Nat) (p1 p2 : Participant), l1[i]? = some p1 → l2[i]? = some p2 →
      p1.winCount = p2.winCount) :
    l1.map Participant.winCount = l2.map Participant.winCount := by
  apply List.ext_getElem?
  intro i
  rw [List.getElem?_map, List.getElem?_map]
  by_cases hi : i < l1.length
  · rw [List.getElem?_eq_getElem hi, List.getElem?_eq_getElem (hl ▸ hi)]
    simp only [Option.map_some', Option.some.injEq]
    exact h i _ _ (List.getElem?_eq_getElem hi) (List.getElem?_eq_getElem (hl ▸ hi))
  · rw [List.getElem?_eq_none (by omega), List.getElem?_eq_none (by omega)]

/-- C5: with as many chairs as participants (N = M >= 1), for every R >= 0
passing the feasibility check and all draws, shuffles and schedules: a round
with all participants selected makes every thread win and adds exactly N to the
total of the win counts; at whatever point a run stands, the table has N
entries and every winCount equals the number of rounds completed; a run that
returns 0 has completed R rounds, so every winCount is R; and the run does
return 0, with every winCount equal to R, when R is at most 42949673 and the
draws of every round reach N distinct indices. -/
theorem C5_everyone_wins_every_round (N R : Nat) (W : Int) (speeds : Nat → ℚ)
    (oracle : Nat → RoundOracle) (hN1 : 1 ≤ N) (hN : N ≤ 2147483647)
    (hcheck : ¬ wrapInt ((R : Int) * N) < wrapInt ((N : Int) * W))
    (hshuffle : ∀ r k, ((oracle r).shuffles k).Perm (List.range N)) :
    (∀ (ps : List Participant) (selected : List Nat) (r : Nat), selected.Nodup →
        selected.length = N → (∀ idx ∈ selected, idx < ps.length) →
        (∀ th ∈ (contend N ps selected (oracle r)).threads, th.phase = Phase.finished true) ∧
          winSum (contend N ps selected (oracle r)).participants = winSum ps + N) ∧
      (main ⟨[some (N : Int), some (N : Int), some (R : Int), some W],
        speeds, oracle⟩).participants.length = N ∧
      (∀ p ∈ (main ⟨[some (N : Int), some (N : Int), some (R : Int), some W],
          speeds, oracle⟩).participants,
        p.winCount = (main ⟨[some (N : Int), some (N : Int), some (R : Int), some W],
          speeds, oracle⟩).roundsCompleted) ∧
      ((main ⟨[some (N : Int), some (N : Int), some (R : Int), some W],
          speeds, oracle⟩).exitCode = some 0 →
        (main ⟨[some (N : Int), some (N : Int), some (R : Int), some W],
          speeds, oracle⟩).roundsCompleted = R ∧
        ∀ p ∈ (main ⟨[some (N : Int), some (N : Int), some (R : Int), some W],
          speeds, oracle⟩).participants, p.winCount = R) ∧
      (R ≤ 42949673 →
        (∀ r, r < R → (∀ d ∈ (oracle r).draws, d < N) ∧ N ≤ (oracle r).draws.dedup.length) →
        (main ⟨[some (N : Int), some (N : Int), some (R : Int), some W],
          speeds, oracle⟩).exitCode = some 0 ∧
        ∀ p ∈ (main ⟨[some (N : Int), some (N : Int), some (R : Int), some W],
          speeds, oracle⟩).participants, p.winCount = R) := by
  have hcover := cover_of_perm hshuffle
  obtain ⟨t1, t2, -, t4⟩ := main_table N N R W speeds oracle hN hcheck hcover
  have hall : ∀ p ∈ (main ⟨[some (N : Int), some (N : Int), some (R : Int), some W],
      speeds, oracle⟩).participants,
      p.winCount = (main ⟨[some (N : Int), some (N : Int), some (R : Int), some W],
        speeds, oracle⟩).roundsCompleted := by
    intro p hp
    obtain ⟨i, hi⟩ := List.mem_iff_getElem?.1 hp
    have hiN : i < N := by
      rw [← t1]
      by_contra hcon
      rw [List.getElem?_eq_none (by omega)] at hi
      cases hi
    rw [t2 i p hi, appearances_full]
    intro r hr
    obtain ⟨selected, hsel, hidx⟩ := t4 r hr
    obtain ⟨hlen, hc⟩ := selectLoop_nodup_length N (oracle r).draws selected hsel
    simp only [cohortOf, hsel, Option.getD_some]
    exact mem_of_full_cohort hc hlen hidx hiN
  have hexit : (main ⟨[some (N : Int), some (N : Int), some (R : Int), some W],
        speeds, oracle⟩).exitCode = some 0 →
      (main ⟨[some (N : Int), some (N : Int), some (R : Int), some W],
        speeds, oracle⟩).roundsCompleted = R ∧
      ∀ p ∈ (main ⟨[some (N : Int), some (N : Int), some (R : Int), some W],
        speeds, oracle⟩).participants, p.winCount = R := by
    intro h
    have hr := main_exit_zero N N R W speeds oracle hN hcheck hcover h
    refine ⟨hr, fun p hp => ?_⟩
    rw [hall p hp, hr]
  refine ⟨?_, t1, hall, hexit, ?_⟩
  · intro ps selected r hc hlen hidx
    refine ⟨fun th hth =>
      contend_all_win N ps selected (oracle r) hc (le_of_eq hlen) (hcover r) th hth, ?_⟩
    rw [contend_participants N ps selected (oracle r) hc (le_of_eq hlen) (hcover r),
      winSum_award ps selected hidx, hlen]
  · intro hR hdraw
    obtain ⟨c1, -⟩ := main_completes N N R W speeds oracle hN1 hN hR hcheck hdraw
    exact ⟨c1, (hexit c1).2⟩

theorem C5_everyone_wins_every_round_witness :
    (main ⟨[some ((3 : Nat) : Int), some ((3 : Nat) : Int), some ((5 : Nat) : Int), some 1],
        fun _ => 0, fun _ => ⟨[0, 1, 1, 2], fun _ => [2, 0, 1], [1, 0]⟩⟩).exitCode = some 0 ∧
      ∀ p ∈ (main ⟨[some ((3 : Nat) : Int), some ((3 : Nat) : Int), some ((5 : Nat) : Int),
          some 1], fun _ => 0, fun _ => ⟨[0, 1, 1, 2], fun _ => [2, 0, 1], [1, 0]⟩⟩).participants,
        p.winCount = (5 : Nat) :=
  (C5_everyone_wins_every_round 3 5 1 (fun _ => 0)
    (fun _ => ⟨[0, 1, 1, 2], fun _ => [2, 0, 1], [1, 0]⟩) (by decide) (by decide) (by decide)
    (fun _ _ => (by decide : ([2, 0, 1] : List Nat).Perm (List.range 3)))).2.2.2.2
    (by decide)
    (fun _ _ => ⟨(by decide : ∀ d ∈ ([0, 1, 1, 2] : List Nat), d < 3),
      (by decide : 3 ≤ ([0, 1, 1, 2] : List Nat).dedup.length)⟩)

theorem main_infeasible (N M R : Nat) (W : Int) (speeds : Nat → ℚ)
    (oracle : Nat → RoundOracle)
    (hcheck : wrapInt ((R : Int) * M) < wrapInt ((N : Int) * W)) :
    main ⟨[some (N : Int), some (M : Int), some (R : Int), some W], speeds, oracle⟩ =
      earlyStop Status.infeasible (some 1) := by
  rw [main_four_args _ N M R W [] rfl, if_pos hcheck]

theorem main_rounds_indep (N M R : Nat) (W : Int) (speeds1 speeds2 : Nat → ℚ)
    (o1 o2 : Nat → RoundOracle) (hM : M ≤ 2147483647)
    (hcheck : ¬ wrapInt ((R : Int) * M) < wrapInt ((N : Int) * W))
    (hd : ∀ r, (o1 r).draws = (o2 r).draws) :
    (main ⟨[some (N : Int), some (M : Int), some (R : Int), some W],
        speeds1, o1⟩).roundsCompleted =
      (main ⟨[some (N : Int), some (M : Int), some (R : Int), some W],
        speeds2, o2⟩).roundsCompleted := by
  rw [main_run N M R W speeds1 o1 hM hcheck, main_run N M R W speeds2 o2 hM hcheck,
    (report_participants N _).2, (report_participants N _).2]
  exact (roundsLoop_indep M R o1 o2 hd R 0 _ _
    (by rw [initial_table_length, initial_table_length])).1

/-- A negative `N` or `M` that passes the feasibility check makes `resize` or
`reserve` throw: `main` does not return. -/
theorem main_negative_size (env : Env) (N M R W : Int) (rest : List (Option Int))
    (h : env.args = some N :: some M :: some R :: some W :: rest)
    (hcheck : ¬ wrapInt (R * M) < wrapInt (N * W)) (hneg : N < 0 ∨ M < 0) :
    main env = earlyStop Status.allocError none := by
  rw [main_four_args env N M R W rest h, if_neg hcheck, if_pos hneg]

/-- A run with a negative `R` that passes the feasibility check plays no round
and returns 0 when the table is not empty. -/
theorem main_no_round (N M : Nat) (R W : Int) (speeds : Nat → ℚ)
    (oracle : Nat → RoundOracle) (hN1 : 1 ≤ N) (hR : R < 0)
    (hcheck : ¬ wrapInt (R * M) < wrapInt ((N : Int) * W)) :
    (main ⟨[some (N : Int), some (M : Int), some R, some W], speeds, oracle⟩).exitCode =
        some 0 ∧
      (main ⟨[some (N : Int), some (M : Int), some R, some W], speeds, oracle⟩).status =
        Status.returned ∧
      (main ⟨[some (N : Int), some (M : Int), some R, some W],
        speeds, oracle⟩).roundsCompleted = R.toNat ∧
      (main ⟨[some (N : Int), some (M : Int), some R, some W],
        speeds, oracle⟩).participants.length = N ∧
      (∃ csv, (main ⟨[some (N : Int), some (M : Int), some R, some W],
        speeds, oracle⟩).resultsCsv = some csv ∧ csv.length = N) ∧
      (main ⟨[some (N : Int), some (M : Int), some R, some W], speeds, oracle⟩).stats ≠
        none := by
  have hz : R.toNat = 0 := Int.toNat_eq_zero.2 hR.le
  rw [main_four_args _ N M R W [] rfl, if_neg hcheck, if_neg (by omega), hz, roundsLoop_zero,
    Int.toNat_ofNat]
  have hlen := initial_table_length N speeds
  have hne : sortBySpeed (initParticipants N speeds) ≠ [] := by
    intro h
    rw [h] at hlen
    simp at hlen
    omega
  obtain ⟨r1, r2, r3, -, r5⟩ := report_returned N
    ⟨none, 0, sortBySpeed (initParticipants N speeds)⟩ rfl hne
  refine ⟨r1, r2, ?_, ?_, ⟨_, r3, ?_⟩, r5⟩
  · rw [(report_participants N _).2]
  · rw [(report_participants N _).1, hlen]
  · rw [List.length_map, hlen]

/-- C7 (as amended): for `int` arguments N >= 1, M >= 0 and R <= 42949673 on
which the feasibility check, as the program computes it, is false, and for
every run in which the draws of each of the R rounds are indices 0..N-1 and
reach M distinct values, `main` plays all R rounds, never leaves the
participant table (the table has N >= 1 entries when `participants[0]` is
read), writes N rows to the results file and returns 0. -/
theorem C7_returns_zero_when_selection_ends (N M : Nat) (R W : Int) (speeds : Nat → ℚ)
    (oracle : Nat → RoundOracle) (hN1 : 1 ≤ N) (hM : M ≤ 2147483647) (hR : R ≤ 42949673)
    (hcheck : ¬ wrapInt (R * M) < wrapInt ((N : Int) * W))
    (hdraw : ∀ r : Nat, (r : Int) < R →
      (∀ d ∈ (oracle r).draws, d < N) ∧ M ≤ (oracle r).draws.dedup.length) :
    (main ⟨[some (N : Int), some (M : Int), some R, some W], speeds, oracle⟩).exitCode =
        some 0 ∧
      (main ⟨[some (N : Int), some (M : Int), some R, some W], speeds, oracle⟩).status =
        Status.returned ∧
      (main ⟨[some (N : Int), some (M : Int), some R, some W],
        speeds, oracle⟩).roundsCompleted = R.toNat ∧
      (main ⟨[some (N : Int), some (M : Int), some R, some W],
        speeds, oracle⟩).participants.length = N ∧
      (∃ csv, (main ⟨[some (N : Int), some (M : Int), some R, some W],
        speeds, oracle⟩).resultsCsv = some csv ∧ csv.length = N) ∧
      (main ⟨[some (N : Int), some (M : Int), some R, some W], speeds, oracle⟩).stats ≠
        none := by
  by_cases hneg : R < 0
  · exact main_no_round N M R W speeds oracle hN1 hneg hcheck
  · obtain ⟨n, rfl⟩ := Int.eq_ofNat_of_zero_le (not_lt.1 hneg)
    rw [Int.toNat_ofNat]
    exact main_completes N M n W speeds oracle hN1 hM (by omega) hcheck
      (fun r hr => hdraw r (by omega))

theorem C7_returns_zero_when_selection_ends_witness :
    (main ⟨[some ((4 : Nat) : Int), some ((2 : Nat) : Int), some 10, some 3],
        fun _ => 0, fun _ => ⟨[3, 3, 1], fun _ => [1, 0], [0, 1, 1]⟩⟩).exitCode = some 0 ∧
      (main ⟨[some ((4 : Nat) : Int), some ((2 : Nat) : Int), some 10, some 3],
        fun _ => 0, fun _ => ⟨[3, 3, 1], fun _ => [1, 0], [0, 1, 1]⟩⟩).roundsCompleted =
          (10 : Int).toNat :=
  ⟨(C7_returns_zero_when_selection_ends 4 2 10 3 (fun _ => 0)
      (fun _ => ⟨[3, 3, 1], fun _ => [1, 0], [0, 1, 1]⟩) (by decide) (by decide) (by decide)
      (by decide)
      (fun _ _ => ⟨(by decide : ∀ d ∈ ([3, 3, 1] : List Nat), d < 4),
        (by decide : 2 ≤ ([3, 3, 1] : List Nat).dedup.length)⟩)).1,
    (C7_returns_zero_when_selection_ends 4 2 10 3 (fun _ => 0)
      (fun _ => ⟨[3, 3, 1], fun _ => [1, 0], [0, 1, 1]⟩) (by decide) (by decide) (by decide)
      (by decide)
      (fun _ _ => ⟨(by decide : ∀ d ∈ ([3, 3, 1] : List Nat), d < 4),
        (by decide : 2 ≤ ([3, 3, 1] : List Nat).dedup.length)⟩)).2.2.1⟩

/-- C7 fails as stated: on the arguments `1 2 1 0` the feasibility check
(2 < 0) is false, the program proceeds, and whatever the draws (all of them
index 0, the only participant) the selection loop of the first round never
reaches two distinct indices: no round is completed and `main` does not
return. -/
theorem C7_selection_never_ends_counterexample :
    (¬ wrapInt (1 * 2) < wrapInt (1 * 0)) ∧
      ∀ (speeds : Nat → ℚ) (oracle : Nat → RoundOracle),
        (∀ d ∈ (oracle 0).draws, d < 1) →
        (main ⟨[some 1, some 2, some 1, some 0], speeds, oracle⟩).exitCode = none ∧
          (main ⟨[some 1, some 2, some 1, some 0], speeds, oracle⟩).status =
            Status.selecting ∧
          (main ⟨[some 1, some 2, some 1, some 0], speeds, oracle⟩).roundsCompleted = 0 := by
  refine ⟨by decide, ?_⟩
  intro speeds oracle hd
  have hrun := main_run 1 2 1 0 speeds oracle (by decide) (by decide)
  simp only [Nat.cast_one, Nat.cast_ofNat] at hrun
  have hsel : selectLoop 2 (oracle 0).draws [] = none :=
    selectLoop_none 2 1 (oracle 0).draws [] (by decide) List.nodup_nil (by simp) hd
  have hone : oneRound 2 (sortBySpeed (initParticipants 1 speeds)) (oracle 0) =
      Except.error Status.selecting := by
    unfold oneRound
    rw [hsel]
  have hloop : roundsLoop 2 1 oracle 1 0 (sortBySpeed (initParticipants 1 speeds)) =
      ⟨some Status.selecting, 0, sortBySpeed (initParticipants 1 speeds)⟩ := by
    rw [roundsLoop_succ, roundBody_of_error 2 1 _ 0 _ Status.selecting hone]
  rw [hrun, hloop]
  exact ⟨rfl, rfl, rfl⟩

theorem oneRound_no_chair (ps : List Participant) (o : RoundOracle) :
    oneRound 0 ps o = Except.ok (contend 0 ps [] o) := by
  have hsel : selectLoop 0 o.draws [] = some [] := by
    cases o.draws <;> rfl
  unfold oneRound
  rw [hsel]
  rfl

theorem roundsLoop_display_fault (oracle : Nat → RoundOracle) (todo round : Nat)
    (ps : List Participant) (hsum : round + todo = 42949674) (htodo : 1 ≤ todo) :
    (roundsLoop 0 ((42949674 : Nat) : Int) oracle todo round ps).fault =
      some Status.displayError := by
  induction todo generalizing round ps with
  | zero => omega
  | succ todo ih =>
    have hone := oneRound_no_chair ps (oracle round)
    by_cases hlast : round = 42949673
    · subst hlast
      have hbar : progressBar ((42949673 : Nat) : Int) ((42949674 : Nat) : Int) = none := by
        decide
      rw [roundsLoop_succ, roundBody_of_display 0 _ _ 42949673 ps _ hone hbar]
    · obtain ⟨bar, hbar⟩ := progressBar_isSome round 42949674 (by omega) (by omega)
      rw [roundsLoop_succ, roundBody_of_ok 0 _ _ round ps _ bar hone hbar]
      exact ih (round + 1) _ (by omega) (by omega)

/-- The bound on `R` is needed: on `1 0 42949674 0` the product `round * 50` of
the progress bar leaves the `int` range in the last round, the string length
comes out negative and `main` does not return. -/
theorem main_progress_bar_overflow (speeds : Nat → ℚ) (oracle : Nat → RoundOracle) :
    (main ⟨[some 1, some 0, some 42949674, some 0], speeds, oracle⟩).status =
        Status.displayError ∧
      (main ⟨[some 1, some 0, some 42949674, some 0], speeds, oracle⟩).exitCode = none := by
  have hrun := main_run 1 0 42949674 0 speeds oracle (by decide) (by decide)
  have hf := roundsLoop_display_fault oracle 42949674 0
    (sortBySpeed (initParticipants 1 speeds)) (by decide) (by decide)
  simp only [Nat.cast_one, Nat.cast_zero, Nat.cast_ofNat] at hrun hf
  rw [hrun]
  unfold report
  rw [hf]
  exact ⟨rfl, rfl⟩

/-- With no participant (`0 0 0 0`) the program passes the feasibility check,
writes an empty results file and then reads `participants[0]`, which does not
exist. -/
theorem main_no_participant (speeds : Nat → ℚ) (oracle : Nat → RoundOracle) :
    (main ⟨[some 0, some 0, some 0, some 0], speeds, oracle⟩).status = Status.noParticipant ∧
      (main ⟨[some 0, some 0, some 0, some 0], speeds, oracle⟩).exitCode = none ∧
      (main ⟨[some 0, some 0, some 0, some 0], speeds, oracle⟩).resultsCsv = some [] := by
  have hrun := main_run 0 0 0 0 speeds oracle (by decide) (by decide)
  simp only [Nat.cast_zero] at hrun
  rw [hrun, roundsLoop_zero]
  exact ⟨rfl, rfl, rfl⟩

theorem report_stats (N : Int) (loop : LoopEnd) (h : (report N loop).exitCode = some 0) :
    (report N loop).stats = statistics N loop.participants := by
  have hf := report_exit_zero N loop h
  unfold report
  rw [hf]
  cases hs : statistics N loop.participants with
  | none => rfl
  | some st => rfl

/-- A run on four non-negative arguments that pass the feasibility check gets
through all `R` rounds when `R` is small enough for the progress bar
arithmetic and in every round the draws are indices of the table and reach `M`
distinct values. -/
theorem main_plays_all_rounds (N M R : Nat) (W : Int) (speeds : Nat → ℚ)
    (oracle : Nat → RoundOracle) (hM : M ≤ 2147483647) (hR : R ≤ 42949673)
    (hcheck : ¬ wrapInt ((R : Int) * M) < wrapInt ((N : Int) * W))
    (hdraw : ∀ r, r < R →
      (∀ d ∈ (oracle r).draws, d < N) ∧ M ≤ (oracle r).draws.dedup.length) :
    (main ⟨[some (N : Int), some (M : Int), some (R : Int), some W],
      speeds, oracle⟩).roundsCompleted = R := by
  rw [main_run N M R W speeds oracle hM hcheck, (report_participants N _).2]
  have hf := roundsLoop_completes M N R oracle hR hdraw R 0
    (sortBySpeed (initParticipants N speeds)) (initial_table_length N speeds) (by omega)
  have := (roundsLoop_bounds M R oracle R 0
    (sortBySpeed (initParticipants N speeds))).2.2.2 hf
  omega

/-- Every row of the table a run ends with has the id and the speed the row
had after the initial sort. -/
theorem main_table_rows (N M R : Nat) (W : Int) (speeds : Nat → ℚ)
    (oracle : Nat → RoundOracle) (hM : M ≤ 2147483647)
    (hcheck : ¬ wrapInt ((R : Int) * M) < wrapInt ((N : Int) * W))
    (hcover : ∀ r k c, c < M → c ∈ (oracle r).shuffles k) (i : Nat) (p : Participant)
    (hi : (main ⟨[some (N : Int), some (M : Int), some (R : Int), some W],
      speeds, oracle⟩).participants[i]? = some p) :
    ∃ p0, (sortBySpeed (initParticipants N speeds))[i]? = some p0 ∧
      p.id = p0.id ∧ p.speed = p0.speed := by
  rw [main_run N M R W speeds oracle hM hcheck, (report_participants N _).1] at hi
  obtain ⟨f1, -, -, -, -, f6, -⟩ := roundsLoop_facts M R oracle hcover R 0
    (sortBySpeed (initParticipants N speeds))
  have hilt : i < (sortBySpeed (initParticipants N speeds)).length := by
    rw [← f1]
    by_contra hcon
    rw [List.getElem?_eq_none (by omega)] at hi
    cases hi
  obtain ⟨q, hq, -, hq2, hq3⟩ := f6 i _ (List.getElem?_eq_getElem hilt)
  rw [hi] at hq
  cases hq
  exact ⟨_, List.getElem?_eq_getElem hilt, hq2, hq3⟩

theorem table_eq_of_rows (l1 l2 : List Participant) (hl : l1.length = l2.length)
    (h : ∀ (i : Nat) (p1 p2 : Participant), l1[i]? = some p1 → l2[i]? = some p2 → p1 = p2) :
    l1 = l2 := by
  apply List.ext_getElem?
  intro i
  by_cases hi : i < l1.length
  · rw [List.getElem?_eq_getElem hi, List.getElem?_eq_getElem (hl ▸ hi)]
    exact congrArg some
      (h i _ _ (List.getElem?_eq_getElem hi) (List.getElem?_eq_getElem (hl ▸ hi)))
  · rw [List.getElem?_eq_none (by omega), List.getElem?_eq_none (by omega)]

/-- C10: with `try_lock` an atomic test-and-set on M chairs free at the start of
a round, for 0 <= M <= N and all speeds, shuffles and schedules: every thread
of a cohort of at most M distinct participants returns having acquired a chair;
at whatever point a run stands, each participant's winCount is the number of
completed rounds whose cohort contained it and the win counts total M per
completed round; a run that returns 0 has completed R rounds, so the total is
R*M; two runs on the same arguments and the same draws have the same win
counts, position by position in the table, whatever their speeds, shuffles and
schedules (the speeds only decide, through the initial sort, which id sits at
which position), and with the same speeds they end with the same table, ids
included; and a run that passes the feasibility check, with R at most 42949673
and draws that reach M distinct indices in every round, does complete all R
rounds, ends with N entries whose win counts are the numbers of rounds whose
cohort contained them and total R*M, and returns 0 when N >= 1. -/
theorem C10_wins_follow_selection_alone (N M R : Nat) (W : Int) (speeds : Nat → ℚ)
    (oracle : Nat → RoundOracle) (hMN : M ≤ N) (hN : N ≤ 2147483647)
    (hshuffle : ∀ r k, ((oracle r).shuffles k).Perm (List.range M)) :
    (∀ (ps : List Participant) (selected : List Nat) (r : Nat), selected.Nodup →
        selected.length ≤ M →
        ∀ th ∈ (contend M ps selected (oracle r)).threads, th.phase = Phase.finished true) ∧
      (∀ (i : Nat) (p : Participant),
        (main ⟨[some (N : Int), some (M : Int), some (R : Int), some W],
          speeds, oracle⟩).participants[i]? = some p →
        p.winCount = appearances M oracle i
          (main ⟨[some (N : Int), some (M : Int), some (R : Int), some W],
            speeds, oracle⟩).roundsCompleted) ∧
      winSum (main ⟨[some (N : Int), some (M : Int), some (R : Int), some W],
          speeds, oracle⟩).participants =
        (M : Int) * (main ⟨[some (N : Int), some (M : Int), some (R : Int), some W],
          speeds, oracle⟩).roundsCompleted ∧
      ((main ⟨[some (N : Int), some (M : Int), some (R : Int), some W],
          speeds, oracle⟩).exitCode = some 0 →
        (main ⟨[some (N : Int), some (M : Int), some (R : Int), some W],
          speeds, oracle⟩).roundsCompleted = R ∧
        winSum (main ⟨[some (N : Int), some (M : Int), some (R : Int), some W],
          speeds, oracle⟩).participants = (R : Int) * M) ∧
      (∀ (speeds2 : Nat → ℚ) (oracle2 : Nat → RoundOracle),
        (∀ r k, ((oracle2 r).shuffles k).Perm (List.range M)) →
        (∀ r, (oracle2 r).draws = (oracle r).draws) →
        (main ⟨[some (N : Int), some (M : Int), some (R : Int), some W],
            speeds2, oracle2⟩).participants.map Participant.winCount =
          (main ⟨[some (N : Int), some (M : Int), some (R : Int), some W],
            speeds, oracle⟩).participants.map Participant.winCount) ∧
      (∀ (oracle2 : Nat → RoundOracle),
        (∀ r k, ((oracle2 r).shuffles k).Perm (List.range M)) →
        (∀ r, (oracle2 r).draws = (oracle r).draws) →
        (main ⟨[some (N : Int), some (M : Int), some (R : Int), some W],
            speeds, oracle2⟩).participants =
          (main ⟨[some (N : Int), some (M : Int), some (R : Int), some W],
            speeds, oracle⟩).participants) ∧
      (R ≤ 42949673 → ¬ wrapInt ((R : Int) * M) < wrapInt ((N : Int) * W) →
        (∀ r, r < R → (∀ d ∈ (oracle r).draws, d < N) ∧ M ≤ (oracle r).draws.dedup.length) →
        (main ⟨[some (N : Int), some (M : Int), some (R : Int), some W],
          speeds, oracle⟩).roundsCompleted = R ∧
        (main ⟨[some (N : Int), some (M : Int), some (R : Int), some W],
          speeds, oracle⟩).participants.length = N ∧
        winSum (main ⟨[some (N : Int), some (M : Int), some (R : Int), some W],
          speeds, oracle⟩).participants = (R : Int) * M ∧
        (∀ (i : Nat) (p : Participant),
          (main ⟨[some (N : Int), some (M : Int), some (R : Int), some W],
            speeds, oracle⟩).participants[i]? = some p →
          p.winCount = appearances M oracle i R) ∧
        (1 ≤ N →
          (main ⟨[some (N : Int), some (M : Int), some (R : Int), some W],
            speeds, oracle⟩).exitCode = some 0)) := by
  have hM : M ≤ 2147483647 := le_trans hMN hN
  have hcover := cover_of_perm hshuffle
  have hthreads : ∀ (ps : List Participant) (selected : List Nat) (r : Nat),
      selected.Nodup → selected.length ≤ M →
      ∀ th ∈ (contend M ps selected (oracle r)).threads, th.phase = Phase.finished true :=
    fun ps selected r hc hlen th hth =>
      contend_all_win M ps selected (oracle r) hc hlen (hcover r) th hth
  by_cases hcheck : wrapInt ((R : Int) * M) < wrapInt ((N : Int) * W)
  · have hstop : ∀ (s : Nat → ℚ) (o : Nat → RoundOracle),
        main ⟨[some (N : Int), some (M : Int), some (R : Int), some W], s, o⟩ =
          earlyStop Status.infeasible (some 1) :=
      fun s o => main_infeasible N M R W s o hcheck
    refine ⟨hthreads, ?_, ?_, ?_, ?_, ?_, ?_⟩
    · intro i p hi
      rw [hstop] at hi
      simp [earlyStop] at hi
    · rw [hstop]
      simp [earlyStop, winSum]
    · intro h
      rw [hstop] at h
      simp [earlyStop] at h
    · intro speeds2 oracle2 _ _
      rw [hstop, hstop]
    · intro oracle2 _ _
      rw [hstop, hstop]
    · intro _ hno _
      exact absurd hcheck hno
  · obtain ⟨t1, t2, t3, -⟩ := main_table N M R W speeds oracle hM hcheck hcover
    have hwins : ∀ (speeds2 : Nat → ℚ) (oracle2 : Nat → RoundOracle),
        (∀ r k, ((oracle2 r).shuffles k).Perm (List.range M)) →
        (∀ r, (oracle2 r).draws = (oracle r).draws) →
        ∀ (i : Nat) (p1 p2 : Participant),
          (main ⟨[some (N : Int), some (M : Int), some (R : Int), some W],
            speeds2, oracle2⟩).participants[i]? = some p1 →
          (main ⟨[some (N : Int), some (M : Int), some (R : Int), some W],
            speeds, oracle⟩).participants[i]? = some p2 →
          p1.winCount = p2.winCount := by
      intro speeds2 oracle2 hshuffle2 hd i p1 p2 h1 h2
      obtain ⟨-, u2, -, -⟩ :=
        main_table N M R W speeds2 oracle2 hM hcheck (cover_of_perm hshuffle2)
      have hrounds := main_rounds_indep N M R W speeds2 speeds oracle2 oracle hM hcheck hd
      rw [u2 i p1 h1, t2 i p2 h2, hrounds, appearances_congr M oracle2 oracle hd]
    refine ⟨hthreads, t2, t3, ?_, ?_, ?_, ?_⟩
    · intro h
      have hr := main_exit_zero N M R W speeds oracle hM hcheck hcover h
      refine ⟨hr, ?_⟩
      rw [t3, hr]
      ring
    · intro speeds2 oracle2 hshuffle2 hd
      obtain ⟨u1, -, -, -⟩ :=
        main_table N M R W speeds2 oracle2 hM hcheck (cover_of_perm hshuffle2)
      exact wins_eq_of_pointwise _ _ (by rw [u1, t1]) (hwins speeds2 oracle2 hshuffle2 hd)
    · intro oracle2 hshuffle2 hd
      obtain ⟨u1, -, -, -⟩ :=
        main_table N M R W speeds oracle2 hM hcheck (cover_of_perm hshuffle2)
      apply table_eq_of_rows _ _ (by rw [u1, t1])
      intro i p1 p2 h1 h2
      obtain ⟨a, ha, ha1, ha2⟩ := main_table_rows N M R W speeds oracle2 hM hcheck
        (cover_of_perm hshuffle2) i p1 h1
      obtain ⟨b, hb, hb1, hb2⟩ := main_table_rows N M R W speeds oracle hM hcheck hcover i p2 h2
      rw [ha] at hb
      cases hb
      have hw := hwins speeds oracle2 hshuffle2 hd i p1 p2 h1 h2
      cases p1
      cases p2
      simp only at ha1 ha2 hb1 hb2 hw
      rw [ha1, ha2, hb1, hb2, hw]
    · intro hR _ hdraw
      have hr := main_plays_all_rounds N M R W speeds oracle hM hR hcheck hdraw
      refine ⟨hr, t1, ?_, ?_, ?_⟩
      · rw [t3, hr]
        ring
      · intro i p hi
        rw [t2 i p hi, hr]
      · intro hN1
        exact (main_completes N M R W speeds oracle hN1 hM hR hcheck hdraw).1

theorem C10_wins_follow_selection_alone_witness :
    (main ⟨[some ((4 : Nat) : Int), some ((2 : Nat) : Int), some ((10 : Nat) : Int),
        some 3], fun _ => 0,
        fun _ => ⟨[3, 3, 1], fun _ => [1, 0], [0, 1, 1]⟩⟩).roundsCompleted = 10 ∧
      winSum (main ⟨[some ((4 : Nat) : Int), some ((2 : Nat) : Int), some ((10 : Nat) : Int),
        some 3], fun _ => 0,
        fun _ => ⟨[3, 3, 1], fun _ => [1, 0], [0, 1, 1]⟩⟩).participants =
          ((10 : Nat) : Int) * ((2 : Nat) : Int) ∧
      (main ⟨[some ((4 : Nat) : Int), some ((2 : Nat) : Int), some ((10 : Nat) : Int),
        some 3], fun _ => 0,
        fun _ => ⟨[3, 3, 1], fun _ => [1, 0], [0, 1, 1]⟩⟩).exitCode = some 0 :=
  have h := (C10_wins_follow_selection_alone 4 2 10 3 (fun _ => 0)
    (fun _ => ⟨[3, 3, 1], fun _ => [1, 0], [0, 1, 1]⟩) (by decide) (by decide)
    (fun _ _ => (by decide : ([1, 0] : List Nat).Perm (List.range 2)))).2.2.2.2.2.2
    (by decide) (by decide)
    (fun _ _ => ⟨(by decide : ∀ d ∈ ([3, 3, 1] : List Nat), d < 4),
      (by decide : 2 ≤ ([3, 3, 1] : List Nat).dedup.length)⟩)
  ⟨h.1, h.2.2.1, h.2.2.2.2 (by decide)⟩

/-! ## Statistics of a long run -/

/-- A run that reaches the win count 46341: on `1 1 46341 0` the one participant
wins every round, the run returns 0, and the quantity sumSq/N - mean*mean it
reports is -4294967296. -/
theorem main_variance_overflow (speeds : Nat → ℚ) (oracle : Nat → RoundOracle)
    (hshuffle : ∀ r k, ((oracle r).shuffles k).Perm (List.range 1))
    (hdraw : ∀ r, r < 46341 →
      (∀ d ∈ (oracle r).draws, d < 1) ∧ 1 ≤ (oracle r).draws.dedup.length) :
    (main ⟨[some 1, some 1, some 46341, some 0], speeds, oracle⟩).exitCode = some 0 ∧
      ∃ s, (main ⟨[some 1, some 1, some 46341, some 0], speeds, oracle⟩).stats = some s ∧
        s.mean = 46341 ∧ s.variance = -4294967296 := by
  have hcheck : ¬ wrapInt (((46341 : Nat) : Int) * ((1 : Nat) : Int)) <
      wrapInt (((1 : Nat) : Int) * 0) := by decide
  have hcover := cover_of_perm hshuffle
  obtain ⟨c1, -, c3, c4, -, -⟩ := main_completes 1 1 46341 0 speeds oracle (le_refl 1)
    (by decide) (by decide) hcheck hdraw
  obtain ⟨-, t2, -, t4⟩ := main_table 1 1 46341 0 speeds oracle (by decide) hcheck hcover
  have hrun := main_run 1 1 46341 0 speeds oracle (by decide) hcheck
  have hstats : (main ⟨[some ((1 : Nat) : Int), some ((1 : Nat) : Int),
        some ((46341 : Nat) : Int), some 0], speeds, oracle⟩).stats =
      statistics ((1 : Nat) : Int) (main ⟨[some ((1 : Nat) : Int), some ((1 : Nat) : Int),
        some ((46341 : Nat) : Int), some 0], speeds, oracle⟩).participants := by
    have c1r := c1
    rw [hrun] at c1r ⊢
    rw [report_stats _ _ c1r, (report_participants _ _).1]
  obtain ⟨p, hp⟩ := List.length_eq_one.1 c4
  have hwin : p.winCount = 46341 := by
    have h0 : (main ⟨[some ((1 : Nat) : Int), some ((1 : Nat) : Int),
        some ((46341 : Nat) : Int), some 0], speeds, oracle⟩).participants[0]? = some p := by
      rw [hp]
      rfl
    rw [t2 0 p h0, c3, appearances_full]
    · rfl
    · intro r hr
      obtain ⟨selected, hsel, hidx⟩ := t4 r (by rw [c3]; exact hr)
      obtain ⟨hlen, hc⟩ := selectLoop_nodup_length 1 (oracle r).draws selected hsel
      simp only [cohortOf, hsel, Option.getD_some]
      exact mem_of_full_cohort hc hlen hidx (by decide)
  rw [hp] at hstats
  obtain ⟨id, wc, sp⟩ := p
  simp only at hwin
  subst hwin
  obtain ⟨s, hs, hm, -, hv⟩ := statistics_overflow id sp
  simp only [Nat.cast_one, Nat.cast_ofNat] at c1 hstats
  exact ⟨c1, s, hstats.trans hs, hm, hv⟩

/-- C6: the statistics loop squares each win count in `int`, so the claim fails
on the table with the single win count 46341: the quantity sumSq/N - mean*mean
whose square root is printed is -4294967296, not the population variance 0,
and is negative; the run `1 1 46341 0` ends with that table and reports that
value. For every non-empty table whose win counts lie in 0..46340
the claim holds: the mean is sum(winCount)/N, sumSq/N - mean*mean is the
population variance and is >= 0, minWin and maxWin are the least and greatest
win counts, and maxWin - minWin >= 0. -/
theorem C6_variance_wraps_above_46340 :
    (∀ (id : Int) (speed : ℚ), ∃ s, statistics 1 [⟨id, 46341, speed⟩] = some s ∧
        s.mean = 46341 ∧ s.variance = -4294967296 ∧ ¬ (0 ≤ s.variance) ∧
        ¬ (s.variance = (([⟨id, 46341, speed⟩] : List Participant).map
          (fun p => ((p.winCount : ℚ) - s.mean) ^ 2)).sum / 1)) ∧
      (∀ ps : List Participant, ps ≠ [] →
        (∀ p ∈ ps, 0 ≤ p.winCount ∧ p.winCount ≤ 46340) →
        ∃ s, statistics (ps.length : Int) ps = some s ∧
          s.mean = (ps.map (fun p => (p.winCount : ℚ))).sum / (ps.length : ℚ) ∧
          s.variance =
            (ps.map (fun p => ((p.winCount : ℚ) - s.mean) ^ 2)).sum / (ps.length : ℚ) ∧
          0 ≤ s.variance ∧
          (∀ p ∈ ps, s.minWin ≤ p.winCount) ∧ (∃ p ∈ ps, p.winCount = s.minWin) ∧
          (∀ p ∈ ps, p.winCount ≤ s.maxWin) ∧ (∃ p ∈ ps, p.winCount = s.maxWin) ∧
          s.gap = s.maxWin - s.minWin ∧ 0 ≤ s.gap) ∧
      (∀ (speeds : Nat → ℚ) (oracle : Nat → RoundOracle),
        (∀ r k, ((oracle r).shuffles k).Perm (List.range 1)) →
        (∀ r, r < 46341 →
          (∀ d ∈ (oracle r).draws, d < 1) ∧ 1 ≤ (oracle r).draws.dedup.length) →
        (main ⟨[some 1, some 1, some 46341, some 0], speeds, oracle⟩).exitCode = some 0 ∧
          ∃ s, (main ⟨[some 1, some 1, some 46341, some 0], speeds, oracle⟩).stats = some s ∧
            s.mean = 46341 ∧ s.variance = -4294967296) := by
  refine ⟨?_, statistics_in_range, main_variance_overflow⟩
  intro id speed
  obtain ⟨s, hs, hmean, -, hvar⟩ := statistics_overflow id speed
  refine ⟨s, hs, hmean, hvar, ?_, ?_⟩
  · rw [hvar]
    norm_num
  · rw [hvar, hmean]
    norm_num

end MusicalChairs
